import Mathlib

set_option maxRecDepth 100000

namespace LatexMD

/-!
Shallow embedding of `latexmd.py`, a Markdown preprocessor that turns
LaTeX snippets delimited by configurable tokens into inline images.
Documents are modelled as `List Char`; the external `latex`/`dvipng`
pipeline invoked through `subprocess.call` is modelled by an `oracle`
function returning `Option (List Char)` (`none` models a non-zero exit,
`some payload` models the base64-encoded image read back from disk), and
`hashlib.md5` hex digests are modelled by a `hash` function parameter.
-/

/-- The backslash character used by the escape convention. -/
def bsl : Char := '\\'

/-- One step of the lazy group `(.+?)` of `build_regexp`'s pattern
`(?<!\x5c)D(.+?)(?<!\x5c)D`: consume content characters one at a time and
close at the first position where the delimiter `d` follows and the
character just before it is not a backslash (the closing look-behind).
`acc` is the content consumed so far; on success, returns the full content
together with the input remaining after the closing delimiter. -/
def findCloseAux (d : List Char) : List Char → List Char → Option (List Char × List Char)
  | _, [] => none
  | acc, c :: rest =>
    if d.isPrefixOf rest ∧ c ≠ bsl then some (acc ++ [c], rest.drop d.length)
    else findCloseAux d (acc ++ [c]) rest

/-- Leftmost match of `build_regexp`'s pattern: try each start position from
the left; a position opens a match when `d` starts there and the preceding
character (`prev` at the very start of the scanned text) is not a backslash
(the opening look-behind).  Returns `(before, content, after)` for the
leftmost successful match, mirroring how the `re` engine scans. -/
def findMatch (d : List Char) : List Char → Option Char → Option (List Char × List Char × List Char)
  | [], _ => none
  | c :: rest, prev =>
    match (if d.isPrefixOf (c :: rest) ∧ prev ≠ some bsl then
            findCloseAux d [] ((c :: rest).drop d.length) else none) with
    | some (content, after) => some ([], content, after)
    | none =>
      match findMatch d rest (some c) with
      | some (pre, content, after) => some (c :: pre, content, after)
      | none => none

/-- Fuelled iteration of `findMatch`, embedding `re.findall`: each found
match contributes its captured group, and scanning resumes right after the
closing delimiter (whose last character becomes the look-behind context). -/
def findallAux (d : List Char) : Nat → List Char → Option Char → List (List Char)
  | 0, _, _ => []
  | fuel + 1, s, prev =>
    match findMatch d s prev with
    | none => []
    | some (_, content, after) => content :: findallAux d fuel after d.getLast?

/-- `re.findall` of the delimiter pattern on `s` (each match consumes at
least one character, so `s.length` fuel always suffices). -/
def findall (d s : List Char) : List (List Char) :=
  findallAux d s.length s none

/-- `pattern.sub(repl, s, 1)`: replace the leftmost match (delimiters and
content) by `repl`; if there is no match the text is unchanged. -/
def sub1 (d repl s : List Char) : List Char :=
  match findMatch d s none with
  | none => s
  | some (pre, _, after) => pre ++ repl ++ after

/-- Fuelled core of Python `str.replace`: scan left to right, replacing
non-overlapping occurrences of `pat` by `rep`. -/
def replaceAllAux (pat rep : List Char) : Nat → List Char → List Char
  | 0, s => s
  | _ + 1, [] => []
  | fuel + 1, c :: rest =>
    if pat.isPrefixOf (c :: rest) then
      rep ++ replaceAllAux pat rep fuel (rest.drop (pat.length - 1))
    else c :: replaceAllAux pat rep fuel rest

/-- Python `s.replace(pat, rep)` for a nonempty pattern. -/
def replaceAll (pat rep s : List Char) : List Char :=
  replaceAllAux pat rep s.length s

/-- `"\n".join(lines)`. -/
def joinLines : List (List Char) → List Char
  | [] => []
  | [l] => l
  | l :: ls => l ++ '\n' :: joinLines ls

/-- `page.split("\n")` (Python semantics: splitting the empty string gives
one empty field). -/
def splitNl : List Char → List (List Char)
  | [] => [[]]
  | c :: rest =>
    if c = '\n' then [] :: splitNl rest
    else
      match splitNl rest with
      | [] => [[c]]
      | l :: ls => (c :: l) :: ls

/-- Helper for `readLines`; `acc` holds the current line reversed. -/
def readLinesAux : List Char → List Char → List (List Char)
  | acc, [] => if acc = [] then [] else [acc.reverse]
  | acc, c :: rest =>
    if c = '\n' then (acc.reverse ++ ['\n']) :: readLinesAux [] rest
    else readLinesAux (c :: acc) rest

/-- `file.readlines()`: split the file contents into lines, each keeping its
trailing newline. -/
def readLines (s : List Char) : List (List Char) :=
  readLinesAux [] s

/-- `line.strip("\n")`: drop newline characters from both ends. -/
def stripNl (l : List Char) : List Char :=
  ((l.dropWhile (· = '\n')).reverse.dropWhile (· = '\n')).reverse

/-- Python `s.split(" ")`: split on every single space, keeping empty
fields. -/
def splitSpace : List Char → List (List Char)
  | [] => [[]]
  | c :: rest =>
    if c = ' ' then [] :: splitSpace rest
    else
      match splitSpace rest with
      | [] => [[c]]
      | l :: ls => (c :: l) :: ls

/-- The in-memory cache `self.cached`, a dict from md5 hex digest to base64
payload, modelled as an association list in insertion order. -/
abbrev CacheMap := List (List Char × List Char)

/-- Dict read: first (and, by construction, only) binding of the key. -/
def lookupA : CacheMap → List Char → Option (List Char)
  | [], _ => none
  | (k, v) :: rest, key => if k = key then some v else lookupA rest key

/-- Dict write `m[k] = v`: overwrite in place when the key is present,
append at the end otherwise (Python dicts preserve insertion order). -/
def insertA (m : CacheMap) (k v : List Char) : CacheMap :=
  if (lookupA m k).isSome then m.map (fun p => if p.1 = k then (k, v) else p)
  else m ++ [(k, v)]

/-- `key, val = line.strip("\n").split(" ")`: succeeds exactly when the
stripped line has exactly two space-separated fields; any other shape
raises `ValueError` in the source, modelled by `none`. -/
def parseLine (l : List Char) : Option (List Char × List Char) :=
  match splitSpace (stripNl l) with
  | [k, v] => some (k, v)
  | _ => none

/-- The cache-loading loop of `__init__`: insert each parsed line; a line
that fails to parse raises inside the `try` block, so loading stops there
and the entries already inserted are kept. -/
def loadCache : CacheMap → List (List Char) → CacheMap
  | m, [] => m
  | m, l :: rest =>
    match parseLine l with
    | some (k, v) => loadCache (insertA m k v) rest
    | none => m

/-- `__init__`'s cache load: a missing or unreadable file is swallowed by
the `except` clause, leaving the pre-existing (class-level) cache as is. -/
def initCache (cached0 : CacheMap) (file : Option (List Char)) : CacheMap :=
  match file with
  | none => cached0
  | some content => loadCache cached0 (readLines content)

/-- The cache write at the end of `run`: append one `"%s %s\n"` line per
new entry, in dict insertion order. -/
def writeCache (m : CacheMap) : List Char :=
  (m.map (fun p => p.1 ++ ' ' :: p.2 ++ ['\n'])).flatten

/-- Fuelled decimal digit accumulator for `natStr`. -/
def natStrAux : Nat → Nat → List Char → List Char
  | 0, _, acc => acc
  | fuel + 1, n, acc =>
    if n = 0 then acc else natStrAux fuel (n / 10) (Nat.digitChar (n % 10) :: acc)

/-- Python `str(n)` for a natural number: standard decimal notation. -/
def natStr (n : Nat) : List Char :=
  if n = 0 then ['0'] else natStrAux n n []

/-- The apostrophe character (used inside the HTML templates). -/
def sq : Char := Char.ofNat 39

/-- `IMG_EXPR % (alt, idv, data)`: the block-form image tag. -/
def imgTag (alt idv data : List Char) : List Char :=
  "<div class=".data ++ sq :: "latex-box math-false".data ++ sq :: "><img class=".data
    ++ sq :: sq :: " alt=".data ++ sq :: alt ++ sq :: " id=".data ++ sq :: idv
    ++ sq :: " src=".data ++ sq :: "data:image/png;base64,".data ++ data
    ++ sq :: "></div>".data

/-- `INLINE_IMG_EXPR % (alt, idv, data)`: the inline image tag. -/
def inlineImgTag (alt idv data : List Char) : List Char :=
  "<img class=".data ++ sq :: "math-true".data ++ sq :: " alt=".data ++ sq :: alt
    ++ sq :: " id=".data ++ sq :: idv ++ sq :: " src=".data
    ++ sq :: "data:image/png;base64,".data ++ data ++ sq :: ">".data

/-- The inline error marker `"<p>{}</p>".format("ERROR")`. -/
def errorMarker : List Char := "<p>ERROR</p>".data

/-- The configuration dict built in `__init__` (the `configs` argument is
ignored by the source). -/
structure Config where
  preamble : List Char
  textDelim : List Char
  mathDelim : List Char
  preambleDelim : List Char

/-- The hard-coded configuration values: empty extra preamble, `%` for text
mode, the two-character sequence U+00C2 U+00A3 for math mode (the source
file stores the UTF-8 mojibake of a pound sign), `%%` for preamble mode. -/
def defaultConfig : Config :=
  { preamble := []
    textDelim := ['%']
    mathDelim := [Char.ofNat 194, Char.ofNat 163]
    preambleDelim := ['%', '%'] }

/-- The class-level base LaTeX preamble. -/
def basePreamble : List Char :=
  ("\\documentclass{article}\n\\usepackage{amsmath}\n\\usepackage{amsthm}\n" ++
   "\\usepackage{amssymb}\n\\usepackage{bm}\n\\usepackage{parskip}\n" ++
   "\\usepackage[usenames,dvipsnames]{color}\n\\pagestyle{empty}\n").data

/-- The `"\n\\begin{document}\n"` terminator appended to the preamble every
run. -/
def beginDoc : List Char := "\n\\begin{document}\n".data

/-- The mutable state of a preprocessor instance that `run` reads and
writes: `self.tex_preamble` and the pre-loaded cache `self.cached`. -/
structure PState where
  tex_preamble : List Char
  cached : CacheMap

/-- Ghost record of one substitution performed by the rewriting loop:
content hash, the `id` attribute value (`hash ++ "_" ++ str(id)`), the
embedded payload (`[]` when the error marker was substituted instead), and
the mode flag. -/
structure Sub where
  hash : List Char
  suffix : List Char
  data : List Char
  math : Bool

/-- State of the per-expression rewriting loop in `run`: the current page,
the `new_cache` dict, the `id` counter, plus ghost logs of the external
invocations made (`(preamble, expr, math_mode)` triples) and of the
substitutions performed. -/
structure RunSt where
  page : List Char
  new_cache : CacheMap
  idc : Nat
  calls : List (List Char × List Char × Bool)
  subs : List Sub

/-- The delimiter whose pattern the loop body reuses for `reg.sub`. -/
def delimFor (cfg : Config) (math : Bool) : List Char :=
  if math then cfg.mathDelim else cfg.textDelim

/-- One iteration of the rewriting loop: look the content hash up in the
pre-loaded cache; on a miss invoke the external pipeline (recording the
call), store a successful payload in `new_cache`, and substitute the first
remaining match of the mode's pattern by an image tag (or by the error
marker when the payload is empty, in particular when the compile failed). -/
def stepExpr (cfg : Config) (hash : List Char → List Char)
    (oracle : List Char → List Char → Bool → Option (List Char))
    (pre : List Char) (cached : CacheMap) (st : RunSt) (e : Bool × List Char) : RunSt :=
  let math := e.1
  let expr := e.2
  let h := hash expr
  let res : List Char × CacheMap × List (List Char × List Char × Bool) :=
    match lookupA cached h with
    | some d => (d, st.new_cache, st.calls)
    | none =>
      match oracle pre expr math with
      | some d => (d, insertA st.new_cache h d, st.calls ++ [(pre, expr, math)])
      | none => ([], st.new_cache, st.calls ++ [(pre, expr, math)])
  let data := res.1
  let nc := res.2.1
  let cs := res.2.2
  let idc := st.idc + 1
  let suffix := h ++ '_' :: natStr idc
  if data ≠ [] then
    let repl := if math then inlineImgTag h suffix data else imgTag h suffix data
    { page := sub1 (delimFor cfg math) repl st.page, new_cache := nc, idc := idc,
      calls := cs, subs := st.subs ++ [⟨h, suffix, data, math⟩] }
  else
    { page := sub1 (delimFor cfg math) errorMarker st.page, new_cache := nc, idc := idc,
      calls := cs, subs := st.subs ++ [⟨h, suffix, [], math⟩] }

/-- The rewriting loop `for reg, math_mode, expr in tex_expr`. -/
def processExprs (cfg : Config) (hash : List Char → List Char)
    (oracle : List Char → List Char → Bool → Option (List Char))
    (pre : List Char) (cached : CacheMap) : List (Bool × List Char) → RunSt → RunSt
  | [], st => st
  | e :: rest, st =>
    processExprs cfg hash oracle pre cached rest (stepExpr cfg hash oracle pre cached st e)

/-- The preamble-stripping loop: `n` single-occurrence substitutions of the
preamble pattern by the empty string. -/
def stripN (d : List Char) : Nat → List Char → List Char
  | 0, p => p
  | n + 1, p => stripN d n (sub1 d [] p)

/-- The post-substitution unescaping loop: in order, replace backslash +
preamble delimiter, backslash + text delimiter, backslash + math delimiter,
and finally double backslash, each time by the unescaped token. -/
def unescape (cfg : Config) (p : List Char) : List Char :=
  [cfg.preambleDelim, cfg.textDelim, cfg.mathDelim, [bsl]].foldl
    (fun pg tok => replaceAll (bsl :: tok) tok pg) p

/-- The extraction of `tex_expr`: all text-mode captures, then all
math-mode captures, each tagged with its mode flag. -/
def texExprsOf (cfg : Config) (page : List Char) : List (Bool × List Char) :=
  (findall cfg.textDelim page).map (fun x => (false, x))
    ++ (findall cfg.mathDelim page).map (fun x => (true, x))

/-- The character standing immediately before the opening delimiter of a
match: the last character of the text before the match, or the look-behind
context `prev` when the match starts at the beginning of the scanned text. -/
def charBefore (prev : Option Char) (pre : List Char) : Option Char :=
  match pre.getLast? with
  | some c => some c
  | none => prev

/-- Everything `run` produces: the returned lines, the new cache entries,
the final preamble, ghost logs of the consumed expression sequence, of the
external invocations, and of the substitutions, the bytes appended to the
cache file, and the updated instance state. -/
structure RunOut where
  outLines : List (List Char)
  new_cache : CacheMap
  preambleUsed : List Char
  exprs : List (Bool × List Char)
  calls : List (List Char × List Char × Bool)
  subs : List Sub
  fileAppend : List Char
  state : PState

/-- `LaTeXPreprocessor.run`: join the lines, absorb and strip the preamble
regions, extract text/math expressions, return early when there are none
(the preamble update has already happened), otherwise rewrite each
expression, unescape the delimiters, and append the new cache entries to
the cache file. -/
def run (cfg : Config) (hash : List Char → List Char)
    (oracle : List Char → List Char → Bool → Option (List Char))
    (st : PState) (lines : List (List Char)) : RunOut :=
  let page := joinLines lines
  let ps := findall cfg.preambleDelim page
  let pre := st.tex_preamble ++ cfg.preamble ++ (ps.map (fun p => p ++ ['\n'])).flatten ++ beginDoc
  let page1 := stripN cfg.preambleDelim ps.length page
  let texExpr := texExprsOf cfg page1
  if texExpr.isEmpty then
    { outLines := splitNl page1, new_cache := [], preambleUsed := pre, exprs := texExpr,
      calls := [], subs := [], fileAppend := [],
      state := { tex_preamble := pre, cached := st.cached } }
  else
    let fin := processExprs cfg hash oracle pre st.cached texExpr
      { page := page1, new_cache := [], idc := 0, calls := [], subs := [] }
    { outLines := splitNl (unescape cfg fin.page), new_cache := fin.new_cache,
      preambleUsed := pre, exprs := texExpr, calls := fin.calls, subs := fin.subs,
      fileAppend := writeCache fin.new_cache,
      state := { tex_preamble := pre, cached := st.cached } }


/-- The payload the loop body ends up with for one entry: the cached value
on a hit, the oracle's payload on a successful compile, `[]` (falsy, hence
the error marker) on a failed compile. -/
def dataOf (hash : List Char → List Char)
    (oracle : List Char → List Char → Bool → Option (List Char))
    (pre : List Char) (cached : CacheMap) (e : Bool × List Char) : List Char :=
  match lookupA cached (hash e.2) with
  | some d => d
  | none =>
    match oracle pre e.2 e.1 with
    | some d => d
    | none => []

/-- The `new_cache` update performed by one loop iteration: only a cache
miss followed by a successful compile inserts an entry. -/
def ncOf (hash : List Char → List Char)
    (oracle : List Char → List Char → Bool → Option (List Char))
    (pre : List Char) (cached : CacheMap) (nc : CacheMap) (e : Bool × List Char) : CacheMap :=
  match lookupA cached (hash e.2) with
  | some _ => nc
  | none =>
    match oracle pre e.2 e.1 with
    | some d => insertA nc (hash e.2) d
    | none => nc

/-- The external invocations made by one loop iteration: none on a cache
hit, exactly one on a miss (whether or not the compile succeeds). -/
def callOf (hash : List Char → List Char) (pre : List Char) (cached : CacheMap)
    (e : Bool × List Char) : List (List Char × List Char × Bool) :=
  match lookupA cached (hash e.2) with
  | some _ => []
  | none => [(pre, e.2, e.1)]

/-- The ghost substitution record of one loop iteration when the `id`
counter has just been bumped to `k`. -/
def subOf (hash : List Char → List Char)
    (oracle : List Char → List Char → Bool → Option (List Char))
    (pre : List Char) (cached : CacheMap) (k : Nat) (e : Bool × List Char) : Sub :=
  ⟨hash e.2, hash e.2 ++ '_' :: natStr k, dataOf hash oracle pre cached e, e.1⟩

/-- The replacement text substituted by one loop iteration: an image tag
carrying the payload, or the error marker when the payload is empty. -/
def replOf (hash : List Char → List Char)
    (oracle : List Char → List Char → Bool → Option (List Char))
    (pre : List Char) (cached : CacheMap) (k : Nat) (e : Bool × List Char) : List Char :=
  if dataOf hash oracle pre cached e = [] then errorMarker
  else if e.1 then
    inlineImgTag (hash e.2) (hash e.2 ++ '_' :: natStr k) (dataOf hash oracle pre cached e)
  else imgTag (hash e.2) (hash e.2 ++ '_' :: natStr k) (dataOf hash oracle pre cached e)

/-- Decides that a list of mode flags has all text-mode (`false`) entries
before all math-mode (`true`) entries. -/
def ftSorted : List Bool → Bool
  | [] => true
  | true :: r => r.all (fun b => b)
  | false :: r => ftSorted r

/-- Spec predicate for the preamble-stripping loop: each of the `n`
single-occurrence substitutions either leaves the page unchanged (no match
remains) or deletes exactly one delimited span, inserting nothing. -/
def stripDeletes (d : List Char) : Nat → List Char → Prop
  | 0, _ => True
  | n + 1, p =>
    (sub1 d [] p = p ∨ ∃ pre c after, p = pre ++ d ++ c ++ d ++ after ∧
      sub1 d [] p = pre ++ after)
    ∧ stripDeletes d n (sub1 d [] p)

/-- Value of a decimal digit character (used only to reason about
`natStr`). -/
def digitVal (c : Char) : Nat := c.toNat - 48

/-- Reads a digit string back into a number, starting from `a` (used only
to reason about `natStr`). -/
def parseFrom (a : Nat) (l : List Char) : Nat :=
  l.foldl (fun x c => x * 10 + digitVal c) a

/-! ### General lemmas about the delimiter matcher -/

theorem isPrefixOf_exists : ∀ {d l : List Char}, d.isPrefixOf l = true → ∃ t, l = d ++ t
  | [], l, _ => ⟨l, rfl⟩
  | a :: as, [], h => by simp [List.isPrefixOf] at h
  | a :: as, b :: bs, h => by
    simp only [List.isPrefixOf, Bool.and_eq_true, beq_iff_eq] at h
    obtain ⟨t, ht⟩ := isPrefixOf_exists (d := as) (l := bs) h.2
    exact ⟨t, by simp [h.1, ht]⟩

theorem findCloseAux_decomp (d : List Char) :
    ∀ (s acc content after : List Char),
    findCloseAux d acc s = some (content, after) →
    ∃ mid, mid ≠ [] ∧ content = acc ++ mid ∧ s = mid ++ d ++ after ∧
      content.getLast? ≠ some bsl := by
  intro s
  induction s with
  | nil => intro acc content after h; simp [findCloseAux] at h
  | cons c rest ih =>
    intro acc content after h
    rw [findCloseAux] at h
    by_cases hc : d.isPrefixOf rest ∧ c ≠ bsl
    · rw [if_pos hc] at h
      simp only [Option.some.injEq, Prod.mk.injEq] at h
      obtain ⟨h1, h2⟩ := h
      obtain ⟨t, ht⟩ := isPrefixOf_exists hc.1
      have hafter : after = t := by rw [← h2, ht, List.drop_left]
      refine ⟨[c], by simp, by simp [h1], by simp [ht, hafter], ?_⟩
      rw [← h1, List.getLast?_concat]
      simpa using hc.2
    · rw [if_neg hc] at h
      obtain ⟨mid, hne, hcont, hrest, hlast⟩ := ih (acc ++ [c]) content after h
      exact ⟨c :: mid, by simp, by simp [hcont], by simp [hrest], hlast⟩

theorem charBefore_cons (prev : Option Char) (c : Char) (pre : List Char) :
    charBefore prev (c :: pre) = charBefore (some c) pre := by
  cases pre with
  | nil => simp [charBefore]
  | cons x xs =>
    rw [charBefore, charBefore, List.getLast?_cons_cons]
    cases h : (x :: xs).getLast? with
    | none => simp at h
    | some y => simp

theorem findMatch_decomp (d : List Char) :
    ∀ (s : List Char) (prev : Option Char) (pre content after : List Char),
    findMatch d s prev = some (pre, content, after) →
    s = pre ++ d ++ content ++ d ++ after ∧ content ≠ [] ∧
      content.getLast? ≠ some bsl ∧ charBefore prev pre ≠ some bsl := by
  intro s
  induction s with
  | nil => intro prev pre content after h; simp [findMatch] at h
  | cons c rest ih =>
    intro prev pre content after h
    rw [findMatch] at h
    split at h
    · rename_i content' after' heq
      split at heq
      · rename_i hcond
        simp only [Option.some.injEq, Prod.mk.injEq] at h
        obtain ⟨hpre, hcont, haft⟩ := h
        obtain ⟨mid, hmne, hmcont, hmid, hmlast⟩ :=
          findCloseAux_decomp d ((c :: rest).drop d.length) [] content' after' heq
        obtain ⟨t, ht⟩ := isPrefixOf_exists hcond.1
        have hdrop : (c :: rest).drop d.length = t := by rw [ht, List.drop_left]
        simp only [List.nil_append] at hmcont
        subst hpre hcont haft hmcont
        refine ⟨?_, by simpa using hmne, hmlast, ?_⟩
        · have hteq : t = content' ++ d ++ after' := by rw [← hdrop, hmid]
          rw [ht, hteq]; simp
        · simpa [charBefore] using hcond.2
      · exact absurd heq (by simp)
    · rename_i heq
      split at h
      · rename_i pre' content' after' hrec
        simp only [Option.some.injEq, Prod.mk.injEq] at h
        obtain ⟨hpre, hcont, haft⟩ := h
        obtain ⟨hs, hne, hlast, hbef⟩ := ih (some c) pre' content' after' hrec
        subst hpre hcont haft
        refine ⟨by simp [hs], hne, hlast, ?_⟩
        rw [charBefore_cons]; exact hbef
      · exact absurd h (by simp)

theorem findMatch_after_lt {d s : List Char} {prev : Option Char}
    {pre content after : List Char}
    (h : findMatch d s prev = some (pre, content, after)) :
    after.length < s.length := by
  obtain ⟨hs, hne, -, -⟩ := findMatch_decomp d s prev pre content after h
  subst hs
  cases content with
  | nil => exact absurd rfl hne
  | cons x xs => simp [List.length_append]; omega

theorem sub1_of_findMatch {d s : List Char} {pre content after : List Char}
    (repl : List Char) (h : findMatch d s none = some (pre, content, after)) :
    sub1 d repl s = pre ++ repl ++ after := by
  rw [sub1, h]

theorem sub1_of_none {d s : List Char} (repl : List Char)
    (h : findMatch d s none = none) : sub1 d repl s = s := by
  rw [sub1, h]

/-! ### Facts about the `run` pipeline state -/

theorem run_state_tex_preamble (cfg : Config) (hash : List Char → List Char)
    (oracle : List Char → List Char → Bool → Option (List Char))
    (st : PState) (lines : List (List Char)) :
    (run cfg hash oracle st lines).state.tex_preamble
      = st.tex_preamble ++ cfg.preamble
        ++ ((findall cfg.preambleDelim (joinLines lines)).map (fun p => p ++ ['\n'])).flatten
        ++ beginDoc := by
  rw [run]
  split <;> rfl

theorem run_preambleUsed_eq (cfg : Config) (hash : List Char → List Char)
    (oracle : List Char → List Char → Bool → Option (List Char))
    (st : PState) (lines : List (List Char)) :
    (run cfg hash oracle st lines).preambleUsed
      = (run cfg hash oracle st lines).state.tex_preamble := by
  rw [run]
  split <;> rfl

/-- C2: a delimiter occurrence preceded by a backslash is never used as an
opening or closing boundary of a matched region (the look-behind guards of
the compiled pattern), and on the concrete input consisting of an escaped
math delimiter immediately followed by an unescaped delimiter pair,
extraction yields exactly the region between the unescaped delimiters. -/
theorem claim_C2 :
    (∀ (d s : List Char) (prev : Option Char) (pre content after : List Char),
      findMatch d s prev = some (pre, content, after) →
        charBefore prev pre ≠ some bsl ∧ content.getLast? ≠ some bsl ∧
          s = pre ++ d ++ content ++ d ++ after) ∧
    findall defaultConfig.mathDelim
        (bsl :: (defaultConfig.mathDelim ++ defaultConfig.mathDelim
          ++ 'b' :: defaultConfig.mathDelim))
      = [['b']] := by
  constructor
  · intro d s prev pre content after h
    obtain ⟨hs, -, hlast, hbef⟩ := findMatch_decomp d s prev pre content after h
    exact ⟨hbef, hlast, hs⟩
  · decide

/-- Witness for C2 at a concrete match of the text delimiter. -/
theorem claim_C2_witness :
    charBefore none [] ≠ some bsl ∧ (['a'] : List Char).getLast? ≠ some bsl ∧
      ['%', 'a', '%'] = [] ++ ['%'] ++ ['a'] ++ ['%'] ++ ([] : List Char) :=
  claim_C2.1 ['%'] ['%', 'a', '%'] none [] ['a'] [] (by decide)

/-- C10: the compile-time preamble is never reset: after `run`, the
instance preamble equals the old one extended by the configured extra
preamble, that run's preamble fragments in document order, and the
`\begin{document}` terminator; hence the preamble of a later run on the
resulting state strictly extends the preamble used by this run. -/
theorem claim_C10 (cfg : Config) (hash : List Char → List Char)
    (oracle : List Char → List Char → Bool → Option (List Char))
    (st : PState) (lines : List (List Char)) :
    (run cfg hash oracle st lines).state.tex_preamble
      = st.tex_preamble ++ cfg.preamble
        ++ ((findall cfg.preambleDelim (joinLines lines)).map (fun p => p ++ ['\n'])).flatten
        ++ beginDoc
    ∧ (run cfg hash oracle st lines).preambleUsed
        = (run cfg hash oracle st lines).state.tex_preamble
    ∧ st.tex_preamble <+: (run cfg hash oracle st lines).state.tex_preamble
    ∧ st.tex_preamble.length < (run cfg hash oracle st lines).state.tex_preamble.length
    ∧ ∀ (cfg₂ : Config) (hash₂ : List Char → List Char)
        (oracle₂ : List Char → List Char → Bool → Option (List Char))
        (lines₂ : List (List Char)),
        (run cfg hash oracle st lines).preambleUsed <+:
          (run cfg₂ hash₂ oracle₂ (run cfg hash oracle st lines).state lines₂).preambleUsed
        ∧ (run cfg hash oracle st lines).preambleUsed.length <
          (run cfg₂ hash₂ oracle₂ (run cfg hash oracle st lines).state lines₂).preambleUsed.length := by
  have h1 := run_state_tex_preamble cfg hash oracle st lines
  have h2 := run_preambleUsed_eq cfg hash oracle st lines
  have hbd : 0 < beginDoc.length := by decide
  refine ⟨h1, h2, ?_, ?_, ?_⟩
  · rw [h1]
    exact ⟨cfg.preamble
      ++ ((findall cfg.preambleDelim (joinLines lines)).map (fun p => p ++ ['\n'])).flatten
      ++ beginDoc, by simp⟩
  · rw [h1]; simp [List.length_append]; omega
  · intro cfg₂ hash₂ oracle₂ lines₂
    have h3 := run_state_tex_preamble cfg₂ hash₂ oracle₂ (run cfg hash oracle st lines).state lines₂
    have h4 := run_preambleUsed_eq cfg₂ hash₂ oracle₂ (run cfg hash oracle st lines).state lines₂
    constructor
    · rw [h4, h3, h2]
      exact ⟨cfg₂.preamble
        ++ ((findall cfg₂.preambleDelim (joinLines lines₂)).map (fun p => p ++ ['\n'])).flatten
        ++ beginDoc, by simp⟩
    · rw [h4, h3, h2]; simp [List.length_append]; omega

/-! ### Splitting and joining lines -/

theorem splitNl_ne_nil : ∀ s : List Char, splitNl s ≠ [] := by
  intro s
  induction s with
  | nil => simp [splitNl]
  | cons c rest ih =>
    rw [splitNl]
    by_cases h : c = '\n'
    · simp [h]
    · rw [if_neg h]
      cases hs : splitNl rest with
      | nil => simp
      | cons l ls => simp

theorem splitNl_no_nl : ∀ {l : List Char}, '\n' ∉ l → splitNl l = [l] := by
  intro l
  induction l with
  | nil => intro _; rfl
  | cons c rest ih =>
    intro h
    simp only [List.mem_cons, not_or] at h
    rw [splitNl, if_neg (Ne.symm h.1), ih h.2]

theorem splitNl_append_nl : ∀ {l : List Char} (r : List Char), '\n' ∉ l →
    splitNl (l ++ '\n' :: r) = l :: splitNl r := by
  intro l
  induction l with
  | nil => intro r _; rw [List.nil_append, splitNl, if_pos rfl]
  | cons c rest ih =>
    intro r h
    simp only [List.mem_cons, not_or] at h
    rw [List.cons_append, splitNl, if_neg (Ne.symm h.1), ih r h.2]

theorem splitNl_joinLines : ∀ (lines : List (List Char)), lines ≠ [] →
    (∀ l ∈ lines, '\n' ∉ l) → splitNl (joinLines lines) = lines := by
  intro lines
  induction lines with
  | nil => intro h _; exact absurd rfl h
  | cons l ls ih =>
    intro _ hnl
    cases ls with
    | nil => rw [joinLines]; exact splitNl_no_nl (hnl l (by simp))
    | cons l₂ ls₂ =>
      rw [joinLines, splitNl_append_nl _ (hnl l (by simp)),
        ih (List.cons_ne_nil _ _) (fun x hx => hnl x (by simp [hx]))]
      simp

/-- C4: a document with no delimited region of any of the three kinds is
returned unchanged (as the same line sequence), with no external invocation
and nothing appended to the cache file. -/
theorem claim_C4 (cfg : Config) (hash : List Char → List Char)
    (oracle : List Char → List Char → Bool → Option (List Char))
    (st : PState) (lines : List (List Char))
    (hne : lines ≠ []) (hnl : ∀ l ∈ lines, '\n' ∉ l)
    (hp : findall cfg.preambleDelim (joinLines lines) = [])
    (ht : findall cfg.textDelim (joinLines lines) = [])
    (hm : findall cfg.mathDelim (joinLines lines) = []) :
    (run cfg hash oracle st lines).outLines = lines
    ∧ (run cfg hash oracle st lines).calls = []
    ∧ (run cfg hash oracle st lines).subs = []
    ∧ (run cfg hash oracle st lines).fileAppend = [] := by
  rw [run]
  simp only [hp, ht, hm, List.length_nil, stripN, texExprsOf, ht, hm, List.map_nil,
    List.nil_append, List.isEmpty_nil, if_true]
  exact ⟨splitNl_joinLines lines hne hnl, trivial, trivial, trivial⟩

/-- Witness for C4 on a concrete one-line document with no delimiters. -/
theorem claim_C4_witness :
    (run defaultConfig (fun s => s) (fun _ _ _ => none) ⟨[], []⟩ [['h', 'i']]).outLines
        = [['h', 'i']]
    ∧ (run defaultConfig (fun s => s) (fun _ _ _ => none) ⟨[], []⟩ [['h', 'i']]).calls = []
    ∧ (run defaultConfig (fun s => s) (fun _ _ _ => none) ⟨[], []⟩ [['h', 'i']]).subs = []
    ∧ (run defaultConfig (fun s => s) (fun _ _ _ => none) ⟨[], []⟩ [['h', 'i']]).fileAppend
        = [] :=
  claim_C4 defaultConfig (fun s => s) (fun _ _ _ => none) ⟨[], []⟩ [['h', 'i']]
    (by decide) (by decide) (by decide) (by decide) (by decide)

/-! ### The rewriting loop -/

theorem stepExpr_eq (cfg : Config) (hash : List Char → List Char)
    (oracle : List Char → List Char → Bool → Option (List Char))
    (pre : List Char) (cached : CacheMap) (st : RunSt) (e : Bool × List Char) :
    stepExpr cfg hash oracle pre cached st e =
      { page := sub1 (delimFor cfg e.1) (replOf hash oracle pre cached (st.idc + 1) e) st.page
        new_cache := ncOf hash oracle pre cached st.new_cache e
        idc := st.idc + 1
        calls := st.calls ++ callOf hash pre cached e
        subs := st.subs ++ [subOf hash oracle pre cached (st.idc + 1) e] } := by
  cases hl : lookupA cached (hash e.2) with
  | some d =>
    simp only [stepExpr, hl, dataOf, ncOf, callOf, replOf, subOf]
    by_cases hd : d = []
    · subst hd; simp
    · simp [hd]
  | none =>
    cases ho : oracle pre e.2 e.1 with
    | some d =>
      simp only [stepExpr, hl, ho, dataOf, ncOf, callOf, replOf, subOf]
      by_cases hd : d = []
      · subst hd; simp
      · simp [hd]
    | none => simp [stepExpr, hl, ho, dataOf, ncOf, callOf, replOf, subOf]

theorem processExprs_append (cfg : Config) (hash : List Char → List Char)
    (oracle : List Char → List Char → Bool → Option (List Char))
    (pre : List Char) (cached : CacheMap) (l₁ l₂ : List (Bool × List Char)) (st : RunSt) :
    processExprs cfg hash oracle pre cached (l₁ ++ l₂) st
      = processExprs cfg hash oracle pre cached l₂
          (processExprs cfg hash oracle pre cached l₁ st) := by
  induction l₁ generalizing st with
  | nil => rfl
  | cons e rest ih => rw [List.cons_append, processExprs, processExprs, ih]

theorem processExprs_idc (cfg : Config) (hash : List Char → List Char)
    (oracle : List Char → List Char → Bool → Option (List Char))
    (pre : List Char) (cached : CacheMap) (l : List (Bool × List Char)) (st : RunSt) :
    (processExprs cfg hash oracle pre cached l st).idc = st.idc + l.length := by
  induction l generalizing st with
  | nil => rfl
  | cons e rest ih =>
    rw [processExprs, ih, stepExpr_eq]
    simp [Nat.add_assoc, Nat.add_comm 1 rest.length]

theorem processExprs_subs (cfg : Config) (hash : List Char → List Char)
    (oracle : List Char → List Char → Bool → Option (List Char))
    (pre : List Char) (cached : CacheMap) (l : List (Bool × List Char)) (st : RunSt) :
    (processExprs cfg hash oracle pre cached l st).subs
      = st.subs ++ l.mapIdx (fun i e => subOf hash oracle pre cached (st.idc + i + 1) e) := by
  induction l generalizing st with
  | nil => simp [processExprs]
  | cons e rest ih =>
    rw [processExprs, ih, stepExpr_eq]
    simp only [List.mapIdx_cons]
    simp [Nat.add_assoc, Nat.add_comm 1 _]

theorem processExprs_calls_mem (cfg : Config) (hash : List Char → List Char)
    (oracle : List Char → List Char → Bool → Option (List Char))
    (pre : List Char) (cached : CacheMap) (l : List (Bool × List Char)) (st : RunSt)
    (c : List Char × List Char × Bool)
    (h : c ∈ (processExprs cfg hash oracle pre cached l st).calls) :
    c ∈ st.calls ∨ lookupA cached (hash c.2.1) = none := by
  induction l generalizing st with
  | nil => exact Or.inl h
  | cons e rest ih =>
    rw [processExprs] at h
    rcases ih _ h with h' | h'
    · rw [stepExpr_eq] at h'
      simp only [List.mem_append] at h'
      rcases h' with h' | h'
      · exact Or.inl h'
      · right
        unfold callOf at h'
        cases hl : lookupA cached (hash e.2) with
        | some d => rw [hl] at h'; simp at h'
        | none =>
          rw [hl] at h'
          simp only [List.mem_singleton] at h'
          subst h'
          exact hl
    · exact Or.inr h'

theorem processExprs_calls_count (cfg : Config) (hash : List Char → List Char)
    (oracle : List Char → List Char → Bool → Option (List Char))
    (pre : List Char) (cached : CacheMap) (E : List Char)
    (hmiss : lookupA cached (hash E) = none) :
    ∀ (l : List (Bool × List Char)) (st : RunSt),
    ((processExprs cfg hash oracle pre cached l st).calls.filter (fun c => c.2.1 == E)).length
      = (st.calls.filter (fun c => c.2.1 == E)).length
        + (l.filter (fun e => e.2 == E)).length := by
  intro l
  induction l with
  | nil => intro st; simp [processExprs]
  | cons e rest ih =>
    intro st
    rw [processExprs, ih, stepExpr_eq]
    simp only [List.filter_append, List.length_append, List.filter_cons]
    unfold callOf
    by_cases he : e.2 = E
    · rw [he, hmiss]
      simp [he]
      omega
    · have hbe : (e.2 == E) = false := by simp [he]
      rw [hbe]
      cases hl : lookupA cached (hash e.2) with
      | some d => simp
      | none => simp [hbe]

/-- C5: when the external compile of an expression fails (and its hash is
not in the pre-loaded cache), the loop substitutes the error marker at the
leftmost remaining match of the expression's pattern, adds nothing to the
new-entry cache, and processing continues with the remaining expressions. -/
theorem claim_C5 (cfg : Config) (hash : List Char → List Char)
    (oracle : List Char → List Char → Bool → Option (List Char))
    (pre : List Char) (cached : CacheMap)
    (l₁ l₂ : List (Bool × List Char)) (m : Bool) (E : List Char) (st₀ : RunSt)
    (p c a : List Char)
    (hmiss : lookupA cached (hash E) = none)
    (hfail : oracle pre E m = none)
    (hmatch : findMatch (delimFor cfg m)
      (processExprs cfg hash oracle pre cached l₁ st₀).page none = some (p, c, a)) :
    (stepExpr cfg hash oracle pre cached
        (processExprs cfg hash oracle pre cached l₁ st₀) (m, E)).page
      = p ++ errorMarker ++ a
    ∧ (stepExpr cfg hash oracle pre cached
        (processExprs cfg hash oracle pre cached l₁ st₀) (m, E)).new_cache
      = (processExprs cfg hash oracle pre cached l₁ st₀).new_cache
    ∧ processExprs cfg hash oracle pre cached (l₁ ++ (m, E) :: l₂) st₀
      = processExprs cfg hash oracle pre cached l₂
          (stepExpr cfg hash oracle pre cached
            (processExprs cfg hash oracle pre cached l₁ st₀) (m, E)) := by
  have hdata : dataOf hash oracle pre cached (m, E) = [] := by
    unfold dataOf; rw [hmiss, hfail]
  have hrepl : ∀ k, replOf hash oracle pre cached k (m, E) = errorMarker := by
    intro k; unfold replOf; rw [hdata]; simp
  refine ⟨?_, ?_, ?_⟩
  · rw [stepExpr_eq]
    simp only [hrepl]
    exact sub1_of_findMatch errorMarker hmatch
  · rw [stepExpr_eq]
    unfold ncOf
    rw [hmiss, hfail]
  · rw [processExprs_append]
    rfl

/-- Witness for C5: a two-expression document where the first compile
fails; the error marker lands at the first match and the second entry is
still processed. -/
theorem claim_C5_witness :
    (stepExpr defaultConfig (fun s => s) (fun _ _ _ => none) [] []
        (processExprs defaultConfig (fun s => s) (fun _ _ _ => none) [] [] []
          ⟨"%a%%b%".data, [], 0, [], []⟩) (false, ['a'])).page
      = [] ++ errorMarker ++ "%b%".data
    ∧ (stepExpr defaultConfig (fun s => s) (fun _ _ _ => none) [] []
        (processExprs defaultConfig (fun s => s) (fun _ _ _ => none) [] [] []
          ⟨"%a%%b%".data, [], 0, [], []⟩) (false, ['a'])).new_cache
      = (processExprs defaultConfig (fun s => s) (fun _ _ _ => none) [] [] []
          ⟨"%a%%b%".data, [], 0, [], []⟩).new_cache
    ∧ processExprs defaultConfig (fun s => s) (fun _ _ _ => none) [] []
        ([] ++ (false, ['a']) :: [(false, ['b'])]) ⟨"%a%%b%".data, [], 0, [], []⟩
      = processExprs defaultConfig (fun s => s) (fun _ _ _ => none) [] [] [(false, ['b'])]
          (stepExpr defaultConfig (fun s => s) (fun _ _ _ => none) [] []
            (processExprs defaultConfig (fun s => s) (fun _ _ _ => none) [] [] []
              ⟨"%a%%b%".data, [], 0, [], []⟩) (false, ['a'])) :=
  claim_C5 defaultConfig (fun s => s) (fun _ _ _ => none) [] [] [] [(false, ['b'])]
    false ['a'] ⟨"%a%%b%".data, [], 0, [], []⟩ [] ['a'] "%b%".data
    rfl rfl (by decide)

theorem run_exprs_eq (cfg : Config) (hash : List Char → List Char)
    (oracle : List Char → List Char → Bool → Option (List Char))
    (st : PState) (lines : List (List Char)) :
    (run cfg hash oracle st lines).exprs
      = texExprsOf cfg (stripN cfg.preambleDelim
          (findall cfg.preambleDelim (joinLines lines)).length (joinLines lines)) := by
  rw [run]
  split <;> rfl

theorem ftSorted_const (A B : List (List Char)) :
    ftSorted (A.map (fun _ => false) ++ B.map (fun _ => true)) = true := by
  induction A with
  | nil =>
    cases B with
    | nil => rfl
    | cons b bs =>
      rw [List.map_nil, List.nil_append, List.map_cons, ftSorted, List.all_eq_true]
      intro y hy
      simp at hy
      exact hy.2
  | cons a as ih => simpa [ftSorted] using ih

/-- C6: the expression sequence consumed by the rewriting loop lists every
text-mode match before every math-mode match, each class in the order
`re.findall` produced it on the preamble-stripped page. -/
theorem claim_C6 (cfg : Config) (hash : List Char → List Char)
    (oracle : List Char → List Char → Bool → Option (List Char))
    (st : PState) (lines : List (List Char)) :
    ftSorted ((run cfg hash oracle st lines).exprs.map Prod.fst) = true
    ∧ ((run cfg hash oracle st lines).exprs.filter (fun e => e.1 == false)).map Prod.snd
        = findall cfg.textDelim (stripN cfg.preambleDelim
            (findall cfg.preambleDelim (joinLines lines)).length (joinLines lines))
    ∧ ((run cfg hash oracle st lines).exprs.filter (fun e => e.1 == true)).map Prod.snd
        = findall cfg.mathDelim (stripN cfg.preambleDelim
            (findall cfg.preambleDelim (joinLines lines)).length (joinLines lines)) := by
  rw [run_exprs_eq]
  unfold texExprsOf
  refine ⟨?_, ?_, ?_⟩
  · simp only [List.map_append, List.map_map]
    exact ftSorted_const _ _
  · simp [List.filter_append, List.filter_map, Function.comp_def, List.map_map]
  · simp [List.filter_append, List.filter_map, Function.comp_def, List.map_map]

theorem processExprs_calls_pre (cfg : Config) (hash : List Char → List Char)
    (oracle : List Char → List Char → Bool → Option (List Char))
    (pre : List Char) (cached : CacheMap) (l : List (Bool × List Char)) (st : RunSt)
    (c : List Char × List Char × Bool)
    (h : c ∈ (processExprs cfg hash oracle pre cached l st).calls) :
    c ∈ st.calls ∨ c.1 = pre := by
  induction l generalizing st with
  | nil => exact Or.inl h
  | cons e rest ih =>
    rw [processExprs] at h
    rcases ih _ h with h' | h'
    · rw [stepExpr_eq] at h'
      simp only [List.mem_append] at h'
      rcases h' with h' | h'
      · exact Or.inl h'
      · right
        unfold callOf at h'
        cases hl : lookupA cached (hash e.2) with
        | some d => rw [hl] at h'; simp at h'
        | none =>
          rw [hl] at h'
          simp only [List.mem_singleton] at h'
          subst h'
          rfl
    · exact Or.inr h'

theorem run_calls_all_pre (cfg : Config) (hash : List Char → List Char)
    (oracle : List Char → List Char → Bool → Option (List Char))
    (st : PState) (lines : List (List Char)) :
    ((run cfg hash oracle st lines).calls.all
      (fun c => c.1 == (run cfg hash oracle st lines).preambleUsed)) = true := by
  simp only [run]
  split
  · rfl
  · rw [List.all_eq_true]
    intro c hc
    rcases processExprs_calls_pre _ _ _ _ _ _ _ _ hc with h | h
    · simp at h
    · simp [h]

theorem stripDeletes_holds (d : List Char) : ∀ (n : Nat) (p : List Char),
    stripDeletes d n p := by
  intro n
  induction n with
  | zero => intro p; trivial
  | succ k ih =>
    intro p
    refine ⟨?_, ih _⟩
    cases hm : findMatch d p none with
    | none => exact Or.inl (sub1_of_none [] hm)
    | some x =>
      obtain ⟨pre, c, after⟩ := x
      obtain ⟨hp, -, -, -⟩ := findMatch_decomp d p none pre c after hm
      right
      exact ⟨pre, c, after, hp, by rw [sub1_of_findMatch [] hm]; simp⟩

/-- C7: each preamble region's captured text is appended, in document
order, to the preamble used by this run; every external invocation of the
run carries exactly that preamble; text/math extraction happens on the page
with the preamble regions already stripped; and each stripping substitution
deletes one delimited span, inserting no visible output. -/
theorem claim_C7 (cfg : Config) (hash : List Char → List Char)
    (oracle : List Char → List Char → Bool → Option (List Char))
    (st : PState) (lines : List (List Char)) :
    (run cfg hash oracle st lines).preambleUsed
      = st.tex_preamble ++ cfg.preamble
        ++ ((findall cfg.preambleDelim (joinLines lines)).map (fun p => p ++ ['\n'])).flatten
        ++ beginDoc
    ∧ ((run cfg hash oracle st lines).calls.all
        (fun c => c.1 == (run cfg hash oracle st lines).preambleUsed)) = true
    ∧ (run cfg hash oracle st lines).exprs
        = texExprsOf cfg (stripN cfg.preambleDelim
            (findall cfg.preambleDelim (joinLines lines)).length (joinLines lines))
    ∧ stripDeletes cfg.preambleDelim (findall cfg.preambleDelim (joinLines lines)).length
        (joinLines lines) :=
  ⟨(run_preambleUsed_eq cfg hash oracle st lines).trans
      (run_state_tex_preamble cfg hash oracle st lines),
   run_calls_all_pre cfg hash oracle st lines,
   run_exprs_eq cfg hash oracle st lines,
   stripDeletes_holds _ _ _⟩

/-! ### Decimal rendering of the id counter -/

theorem natStrAux_zero : ∀ (fuel : Nat) (acc : List Char), natStrAux fuel 0 acc = acc := by
  intro fuel acc
  cases fuel with
  | zero => rfl
  | succ k => rw [natStrAux, if_pos rfl]

theorem natStrAux_append : ∀ (fuel n : Nat) (acc : List Char),
    natStrAux fuel n acc = natStrAux fuel n [] ++ acc := by
  intro fuel
  induction fuel with
  | zero => intro n acc; rfl
  | succ k ih =>
    intro n acc
    by_cases hn : n = 0
    · subst hn; rw [natStrAux_zero, natStrAux_zero]; rfl
    · rw [natStrAux, if_neg hn, natStrAux, if_neg hn, ih _ (Nat.digitChar (n % 10) :: acc),
        ih _ [Nat.digitChar (n % 10)], List.append_assoc]
      rfl

theorem digitVal_digitChar (d : Nat) (h : d < 10) :
    digitVal (Nat.digitChar d) = d := by
  interval_cases d <;> rfl

theorem parseFrom_natStrAux : ∀ (fuel n a : Nat), n ≤ fuel →
    parseFrom a (natStrAux fuel n []) = a * 10 ^ (natStrAux fuel n []).length + n := by
  intro fuel
  induction fuel with
  | zero =>
    intro n a hle
    have : n = 0 := Nat.le_zero.mp hle
    subst this
    simp [natStrAux, parseFrom]
  | succ k ih =>
    intro n a hle
    by_cases hn : n = 0
    · subst hn; rw [natStrAux_zero]; simp [parseFrom]
    · rw [natStrAux, if_neg hn, natStrAux_append]
      have hdiv : n / 10 ≤ k := by
        have h1 : n / 10 < n := Nat.div_lt_self (Nat.pos_of_ne_zero hn) (by omega)
        omega
      have hmod : n % 10 < 10 := Nat.mod_lt _ (by omega)
      rw [parseFrom, List.foldl_append, ← parseFrom, ← parseFrom, ih _ a hdiv]
      simp only [parseFrom, List.foldl_cons, List.foldl_nil, digitVal_digitChar _ hmod,
        List.length_append, List.length_cons, List.length_nil]
      rw [Nat.pow_succ]
      have := Nat.div_add_mod n 10
      ring_nf
      omega

theorem parseFrom_natStr (n : Nat) : parseFrom 0 (natStr n) = n := by
  by_cases hn : n = 0
  · subst hn; rfl
  · rw [natStr, if_neg hn, parseFrom_natStrAux n n 0 (Nat.le_refl n)]
    simp

theorem natStr_inj {m n : Nat} (h : natStr m = natStr n) : m = n := by
  have hm := parseFrom_natStr m
  rw [h, parseFrom_natStr n] at hm
  exact hm.symm

/-! ### C1: repeated expressions -/

theorem processExprs_subs_length (cfg : Config) (hash : List Char → List Char)
    (oracle : List Char → List Char → Bool → Option (List Char))
    (pre : List Char) (cached : CacheMap) (l : List (Bool × List Char)) (st : RunSt) :
    (processExprs cfg hash oracle pre cached l st).subs.length
      = st.subs.length + l.length := by
  rw [processExprs_subs]
  simp [List.length_mapIdx]

theorem processExprs_subs_getElem (cfg : Config) (hash : List Char → List Char)
    (oracle : List Char → List Char → Bool → Option (List Char))
    (pre : List Char) (cached : CacheMap) (l : List (Bool × List Char)) (st : RunSt)
    (i : Nat) (h : i < st.subs.length) :
    (processExprs cfg hash oracle pre cached l st).subs[i]? = st.subs[i]? := by
  rw [processExprs_subs]
  exact List.getElem?_append_left h

/-- C1 (amended): an expression `E` repeated in the consumed sequence is
compiled once per occurrence whose hash misses the pre-loaded cache (the
in-run `new_cache` buffer is never consulted); two same-mode occurrences
both record the compiler's payload for `E`, and their element identifier
suffixes differ because the running counter differs. -/
theorem claim_C1 (cfg : Config) (hash : List Char → List Char)
    (oracle : List Char → List Char → Bool → Option (List Char))
    (pre : List Char) (cached : CacheMap)
    (l₁ l₂ l₃ : List (Bool × List Char)) (m : Bool) (E d : List Char) (st₀ : RunSt)
    (hmiss : lookupA cached (hash E) = none)
    (hsucc : oracle pre E m = some d) :
    ((processExprs cfg hash oracle pre cached (l₁ ++ (m, E) :: l₂ ++ (m, E) :: l₃)
          st₀).calls.filter (fun c => c.2.1 == E)).length
      = (st₀.calls.filter (fun c => c.2.1 == E)).length
        + ((l₁ ++ (m, E) :: l₂ ++ (m, E) :: l₃).filter (fun e => e.2 == E)).length
    ∧ 2 ≤ ((l₁ ++ (m, E) :: l₂ ++ (m, E) :: l₃).filter (fun e => e.2 == E)).length
    ∧ (processExprs cfg hash oracle pre cached (l₁ ++ (m, E) :: l₂ ++ (m, E) :: l₃)
          st₀).subs[st₀.subs.length + l₁.length]?
        = some ⟨hash E, hash E ++ '_' :: natStr (st₀.idc + l₁.length + 1), d, m⟩
    ∧ (processExprs cfg hash oracle pre cached (l₁ ++ (m, E) :: l₂ ++ (m, E) :: l₃)
          st₀).subs[st₀.subs.length + l₁.length + l₂.length + 1]?
        = some ⟨hash E, hash E ++ '_' :: natStr (st₀.idc + l₁.length + l₂.length + 2), d, m⟩
    ∧ hash E ++ '_' :: natStr (st₀.idc + l₁.length + 1)
        ≠ hash E ++ '_' :: natStr (st₀.idc + l₁.length + l₂.length + 2) := by
  have hdata : dataOf hash oracle pre cached (m, E) = d := by
    unfold dataOf; rw [hmiss, hsucc]
  have hfin : processExprs cfg hash oracle pre cached (l₁ ++ (m, E) :: l₂ ++ (m, E) :: l₃) st₀
      = processExprs cfg hash oracle pre cached l₃
          (stepExpr cfg hash oracle pre cached
            (processExprs cfg hash oracle pre cached l₂
              (stepExpr cfg hash oracle pre cached
                (processExprs cfg hash oracle pre cached l₁ st₀) (m, E))) (m, E)) := by
    rw [processExprs_append, processExprs, processExprs_append, processExprs]
  refine ⟨?_, ?_, ?_, ?_, ?_⟩
  · rw [processExprs_calls_count cfg hash oracle pre cached E hmiss]
  · simp [List.filter_append, List.filter_cons]
    omega
  · rw [hfin]
    set S₁ := processExprs cfg hash oracle pre cached l₁ st₀ with hS₁
    set A := stepExpr cfg hash oracle pre cached S₁ (m, E) with hA
    set S₂ := processExprs cfg hash oracle pre cached l₂ A with hS₂
    set B := stepExpr cfg hash oracle pre cached S₂ (m, E) with hB
    have hS₁len : S₁.subs.length = st₀.subs.length + l₁.length :=
      processExprs_subs_length cfg hash oracle pre cached l₁ st₀
    have hS₁idc : S₁.idc = st₀.idc + l₁.length :=
      processExprs_idc cfg hash oracle pre cached l₁ st₀
    have hAsubs : A.subs = S₁.subs ++ [subOf hash oracle pre cached (S₁.idc + 1) (m, E)] := by
      rw [hA, stepExpr_eq]
    have hAlen : A.subs.length = st₀.subs.length + l₁.length + 1 := by
      rw [hAsubs]; simp [hS₁len]
    have hBsubs : B.subs = S₂.subs ++ [subOf hash oracle pre cached (S₂.idc + 1) (m, E)] := by
      rw [hB, stepExpr_eq]
    have hS₂len : S₂.subs.length = st₀.subs.length + l₁.length + 1 + l₂.length := by
      rw [hS₂, processExprs_subs_length, hAlen]
    have h1 : (processExprs cfg hash oracle pre cached l₃ B).subs[st₀.subs.length + l₁.length]?
        = B.subs[st₀.subs.length + l₁.length]? := by
      apply processExprs_subs_getElem
      rw [hBsubs]
      simp only [List.length_append, List.length_cons, List.length_nil, hS₂len]
      omega
    rw [h1, hBsubs, List.getElem?_append_left (by rw [hS₂len]; omega),
      hS₂, processExprs_subs_getElem _ _ _ _ _ _ _ _ (by rw [hAlen]; omega),
      hAsubs, ← hS₁len, List.getElem?_concat_length]
    rw [hS₁idc]
    unfold subOf
    rw [hdata]
  · rw [hfin]
    set S₁ := processExprs cfg hash oracle pre cached l₁ st₀ with hS₁
    set A := stepExpr cfg hash oracle pre cached S₁ (m, E) with hA
    set S₂ := processExprs cfg hash oracle pre cached l₂ A with hS₂
    set B := stepExpr cfg hash oracle pre cached S₂ (m, E) with hB
    have hS₁len : S₁.subs.length = st₀.subs.length + l₁.length :=
      processExprs_subs_length cfg hash oracle pre cached l₁ st₀
    have hS₁idc : S₁.idc = st₀.idc + l₁.length :=
      processExprs_idc cfg hash oracle pre cached l₁ st₀
    have hAsubs : A.subs = S₁.subs ++ [subOf hash oracle pre cached (S₁.idc + 1) (m, E)] := by
      rw [hA, stepExpr_eq]
    have hAlen : A.subs.length = st₀.subs.length + l₁.length + 1 := by
      rw [hAsubs]; simp [hS₁len]
    have hAidc : A.idc = st₀.idc + l₁.length + 1 := by
      rw [hA, stepExpr_eq]; simp [hS₁idc]
    have hBsubs : B.subs = S₂.subs ++ [subOf hash oracle pre cached (S₂.idc + 1) (m, E)] := by
      rw [hB, stepExpr_eq]
    have hS₂len : S₂.subs.length = st₀.subs.length + l₁.length + 1 + l₂.length := by
      rw [hS₂, processExprs_subs_length, hAlen]
    have hS₂idc : S₂.idc = st₀.idc + l₁.length + 1 + l₂.length := by
      rw [hS₂, processExprs_idc, hAidc]
    have h1 : (processExprs cfg hash oracle pre cached l₃
          B).subs[st₀.subs.length + l₁.length + l₂.length + 1]?
        = B.subs[st₀.subs.length + l₁.length + l₂.length + 1]? := by
      apply processExprs_subs_getElem
      rw [hBsubs]
      simp only [List.length_append, List.length_cons, List.length_nil, hS₂len]
      omega
    have h2 : st₀.subs.length + l₁.length + l₂.length + 1 = S₂.subs.length := by
      rw [hS₂len]; omega
    rw [h1, hBsubs, h2, List.getElem?_concat_length, hS₂idc]
    unfold subOf
    rw [hdata]
    have h3 : st₀.idc + l₁.length + 1 + l₂.length + 1
        = st₀.idc + l₁.length + l₂.length + 2 := by omega
    rw [h3]
  · intro heq
    have h4 : ('_' :: natStr (st₀.idc + l₁.length + 1) : List Char)
        = '_' :: natStr (st₀.idc + l₁.length + l₂.length + 2) :=
      List.append_cancel_left heq
    have h5 := natStr_inj (List.cons.injEq _ _ _ _ ▸ h4).2
    omega

/-- Counterexample to C1 as stated: in the document `%a% %a%` (same
expression text `a` twice, empty starting cache) the external pipeline is
invoked twice for `a`, not at most once; and in a document containing `a`
once in text mode and once in math mode, the two substituted occurrences
carry different payloads (the math compile wraps the text in `$…$`, here
modelled by a mode-sensitive oracle). -/
theorem claim_C1_counterexample :
    ((run defaultConfig (fun s => s) (fun _ _ _ => some ['P']) ⟨[], []⟩
        ["%a% %a%".data]).calls.filter (fun c => c.2.1 == ['a'])).length = 2
    ∧ ((run defaultConfig (fun s => s) (fun _ _ _ => some ['P']) ⟨[], []⟩
        ["%a% %a%".data]).exprs.map Prod.snd) = [['a'], ['a']]
    ∧ ((run defaultConfig (fun s => s) (fun _ _ m => some (if m then ['M'] else ['T'])) ⟨[], []⟩
        ["%a% ".data ++ defaultConfig.mathDelim ++ 'a' :: defaultConfig.mathDelim]).exprs.map
        Prod.snd) = [['a'], ['a']]
    ∧ ((run defaultConfig (fun s => s) (fun _ _ m => some (if m then ['M'] else ['T'])) ⟨[], []⟩
        ["%a% ".data ++ defaultConfig.mathDelim ++ 'a' :: defaultConfig.mathDelim]).subs.map
        (fun s => s.data)) = [['T'], ['M']] := by
  refine ⟨by decide, by decide, by decide, by decide⟩

/-- Witness for the amended C1 on the two-occurrence document `%a% %a%`. -/
theorem claim_C1_witness :
    ((processExprs defaultConfig (fun s => s) (fun _ _ _ => some ['P']) [] []
        [(false, ['a']), (false, ['a'])] ⟨"%a% %a%".data, [], 0, [], []⟩).calls.filter
        (fun c => c.2.1 == ['a'])).length = 2
    ∧ (processExprs defaultConfig (fun s => s) (fun _ _ _ => some ['P']) [] []
        [(false, ['a']), (false, ['a'])]
        ⟨"%a% %a%".data, [], 0, [], []⟩).subs[0]? = some ⟨['a'], "a_1".data, ['P'], false⟩
    ∧ (processExprs defaultConfig (fun s => s) (fun _ _ _ => some ['P']) [] []
        [(false, ['a']), (false, ['a'])]
        ⟨"%a% %a%".data, [], 0, [], []⟩).subs[1]? = some ⟨['a'], "a_2".data, ['P'], false⟩
    ∧ ("a_1".data : List Char) ≠ "a_2".data := by
  have h := claim_C1 defaultConfig (fun s => s) (fun _ _ _ => some ['P']) [] [] [] [] []
    false ['a'] ['P'] ⟨"%a% %a%".data, [], 0, [], []⟩ rfl rfl
  exact ⟨h.1, h.2.2.1, h.2.2.2.1, h.2.2.2.2⟩

/-! ### The association-list cache -/

theorem lookupA_map_overwrite (k v : List Char) :
    ∀ (m : CacheMap), (lookupA m k).isSome = true →
    lookupA (m.map (fun p => if p.1 = k then (k, v) else p)) k = some v := by
  intro m
  induction m with
  | nil => intro h; simp [lookupA] at h
  | cons p m' ih =>
    intro h
    obtain ⟨k₁, v₁⟩ := p
    by_cases hk : k₁ = k
    · subst hk
      simp only [List.map_cons]
      rw [if_pos trivial, lookupA, if_pos rfl]
    · rw [lookupA, if_neg hk] at h
      simp only [List.map_cons, if_neg hk]
      rw [lookupA, if_neg hk]
      exact ih h

theorem lookupA_map_other (k v k' : List Char) (hne : k' ≠ k) :
    ∀ (m : CacheMap),
    lookupA (m.map (fun p => if p.1 = k then (k, v) else p)) k' = lookupA m k' := by
  intro m
  induction m with
  | nil => rfl
  | cons p m' ih =>
    obtain ⟨k₁, v₁⟩ := p
    by_cases hk : k₁ = k
    · subst hk
      simp only [List.map_cons, if_pos rfl]
      rw [lookupA, lookupA, if_neg (fun h => hne h.symm), if_neg (fun h => hne h.symm)]
      exact ih
    · simp only [List.map_cons, if_neg hk]
      rw [lookupA, lookupA]
      by_cases hk' : k₁ = k'
      · rw [if_pos hk', if_pos hk']
      · rw [if_neg hk', if_neg hk']
        exact ih

theorem lookupA_append_single (k v : List Char) :
    ∀ (m : CacheMap), lookupA m k = none → lookupA (m ++ [(k, v)]) k = some v := by
  intro m
  induction m with
  | nil => intro _; simp [lookupA]
  | cons p m' ih =>
    intro h
    obtain ⟨k₁, v₁⟩ := p
    rw [lookupA] at h
    by_cases hk : k₁ = k
    · rw [if_pos hk] at h; exact absurd h (by simp)
    · rw [if_neg hk] at h
      rw [List.cons_append, lookupA, if_neg hk]
      exact ih h

theorem lookupA_append_single_other (k v k' : List Char) (hne : k ≠ k') :
    ∀ (m : CacheMap), lookupA (m ++ [(k, v)]) k' = lookupA m k' := by
  intro m
  induction m with
  | nil => simp [lookupA, hne]
  | cons p m' ih =>
    obtain ⟨k₁, v₁⟩ := p
    rw [List.cons_append, lookupA, lookupA]
    by_cases hk : k₁ = k'
    · rw [if_pos hk, if_pos hk]
    · rw [if_neg hk, if_neg hk]
      exact ih

theorem lookupA_insertA_self (m : CacheMap) (k v : List Char) :
    lookupA (insertA m k v) k = some v := by
  unfold insertA
  by_cases h : (lookupA m k).isSome = true
  · rw [if_pos h]
    exact lookupA_map_overwrite k v m h
  · rw [if_neg h]
    exact lookupA_append_single k v m (by
      cases hl : lookupA m k
      · rfl
      · rw [hl] at h; simp at h)

theorem lookupA_insertA_other (m : CacheMap) (k v k' : List Char) (hne : k' ≠ k) :
    lookupA (insertA m k v) k' = lookupA m k' := by
  unfold insertA
  by_cases h : (lookupA m k).isSome = true
  · rw [if_pos h]
    exact lookupA_map_other k v k' hne m
  · rw [if_neg h]
    exact lookupA_append_single_other k v k' (fun he => hne he.symm) m

theorem loadCache_lookup_mono (k : List Char) :
    ∀ (ls : List (List Char)) (m : CacheMap), (lookupA m k).isSome = true →
    (lookupA (loadCache m ls) k).isSome = true := by
  intro ls
  induction ls with
  | nil => intro m h; exact h
  | cons l rest ih =>
    intro m h
    rw [loadCache]
    cases hp : parseLine l with
    | none => exact h
    | some kv =>
      obtain ⟨k₁, v₁⟩ := kv
      apply ih
      by_cases hk : k = k₁
      · subst hk; rw [lookupA_insertA_self]; rfl
      · rw [lookupA_insertA_other _ _ _ _ hk]; exact h

theorem loadCache_append_good (ls₁ : List (List Char))
    (h : ∀ l ∈ ls₁, (parseLine l).isSome = true) :
    ∀ (ls₂ : List (List Char)) (m : CacheMap),
    loadCache m (ls₁ ++ ls₂) = loadCache (loadCache m ls₁) ls₂ := by
  induction ls₁ with
  | nil => intro ls₂ m; rfl
  | cons l rest ih =>
    intro ls₂ m
    rw [List.cons_append, loadCache]
    cases hp : parseLine l with
    | none =>
      have := h l (by simp)
      rw [hp] at this
      simp at this
    | some kv =>
      obtain ⟨k₁, v₁⟩ := kv
      rw [loadCache, hp]
      exact ih (fun x hx => h x (by simp [hx])) ls₂ _

/-- C9: a missing cache file leaves the pre-existing cache untouched, and a
malformed line stops loading at that line while every entry parsed before
it remains available in the cache (the cache is not reset). -/
theorem claim_C9 (c₀ : CacheMap) (good : List (List Char)) (bad : List Char)
    (rest : List (List Char))
    (hgood : ∀ l ∈ good, (parseLine l).isSome = true)
    (hbad : parseLine bad = none) :
    initCache c₀ none = c₀
    ∧ loadCache c₀ (good ++ bad :: rest) = loadCache c₀ good
    ∧ ∀ l ∈ good, ∀ k v, parseLine l = some (k, v) →
        (lookupA (loadCache c₀ (good ++ bad :: rest)) k).isSome = true := by
  have hstop : loadCache c₀ (good ++ bad :: rest) = loadCache c₀ good := by
    rw [loadCache_append_good good hgood, loadCache, hbad]
  refine ⟨rfl, hstop, ?_⟩
  intro l hl k v hkv
  rw [hstop]
  clear hstop
  induction good generalizing c₀ with
  | nil => simp at hl
  | cons g grest ih =>
    rw [loadCache]
    rcases List.mem_cons.mp hl with hl' | hl'
    · subst hl'
      rw [hkv]
      apply loadCache_lookup_mono
      rw [lookupA_insertA_self]
      rfl
    · cases hp : parseLine g with
      | none =>
        have := hgood g (by simp)
        rw [hp] at this
        simp at this
      | some kv' =>
        obtain ⟨k₁, v₁⟩ := kv'
        exact ih (insertA c₀ k₁ v₁)
          (fun x hx => hgood x (List.mem_cons_of_mem _ hx)) hl'

/-- Witness for C9: one good line, one malformed line, one ignored line. -/
theorem claim_C9_witness :
    initCache [(['k'], ['w'])] none = [(['k'], ['w'])]
    ∧ loadCache [] (["a b\n".data] ++ "x\n".data :: ["c d\n".data])
        = loadCache [] ["a b\n".data]
    ∧ ∀ l ∈ ["a b\n".data], ∀ k v, parseLine l = some (k, v) →
        (lookupA (loadCache [] (["a b\n".data] ++ "x\n".data :: ["c d\n".data])) k).isSome
          = true := by
  have h := claim_C9 [] ["a b\n".data] "x\n".data ["c d\n".data]
    (by decide) (by decide)
  exact ⟨rfl, h.2.1, h.2.2⟩

/-! ### Reading back the cache file -/

theorem readLinesAux_line : ∀ (l : List Char), '\n' ∉ l → ∀ (acc b : List Char),
    readLinesAux acc (l ++ '\n' :: b) = (acc.reverse ++ l ++ ['\n']) :: readLinesAux [] b := by
  intro l
  induction l with
  | nil =>
    intro _ acc b
    rw [List.nil_append, readLinesAux, if_pos rfl]
    simp
  | cons c l' ih =>
    intro h acc b
    have hc : c ≠ '\n' := fun hcc => h (by simp [hcc])
    rw [List.cons_append, readLinesAux, if_neg hc, ih (fun hm => h (by simp [hm])) (c :: acc) b]
    simp

theorem readLinesAux_ends_nl : ∀ (a : List Char), a.getLast? = some '\n' →
    ∀ (acc b : List Char),
    readLinesAux acc (a ++ b) = readLinesAux acc a ++ readLinesAux [] b := by
  intro a
  induction a with
  | nil => intro h; simp at h
  | cons c a' ih =>
    intro h acc b
    cases a' with
    | nil =>
      simp only [List.getLast?_singleton, Option.some.injEq] at h
      subst h
      rw [List.cons_append, readLinesAux, if_pos rfl, readLinesAux, if_pos rfl]
      rw [readLinesAux]
      simp
    | cons c₂ a'' =>
      have h' : (c₂ :: a'').getLast? = some '\n' := by
        rw [List.getLast?_cons_cons] at h
        exact h
      by_cases hc : c = '\n'
      · subst hc
        rw [List.cons_append, readLinesAux, if_pos rfl, ih h' [] b]
        conv_rhs => rw [readLinesAux, if_pos rfl]
        rw [List.cons_append]
      · rw [List.cons_append, readLinesAux, if_neg hc, readLinesAux, if_neg hc]
        exact ih h' (c :: acc) b

theorem readLines_writeCache : ∀ (nc : CacheMap),
    (∀ q ∈ nc, '\n' ∉ q.1 ∧ '\n' ∉ q.2) →
    readLines (writeCache nc) = nc.map (fun q => q.1 ++ ' ' :: q.2 ++ ['\n']) := by
  intro nc
  induction nc with
  | nil => intro _; rfl
  | cons q nc' ih =>
    intro h
    obtain ⟨hk, hv⟩ := h q (by simp)
    have hline : '\n' ∉ q.1 ++ ' ' :: q.2 := by
      simp only [List.mem_append, List.mem_cons]
      rintro (h' | h' | h') <;> [exact hk h'; exact absurd h'.symm (by decide); exact hv h']
    have : writeCache (q :: nc') = (q.1 ++ ' ' :: q.2) ++ '\n' :: writeCache nc' := by
      rw [writeCache, List.map_cons, List.flatten_cons]
      simp [writeCache]
    rw [readLines, this, readLinesAux_line _ hline [] (writeCache nc'), List.map_cons]
    rw [← readLines, ih (fun x hx => h x (by simp [hx]))]
    simp

theorem dropWhile_nl_no : ∀ (x : List Char), '\n' ∉ x → x.dropWhile (· = '\n') = x := by
  intro x
  induction x with
  | nil => intro _; rfl
  | cons c x' _ =>
    intro h
    have hc : c ≠ '\n' := fun hcc => h (by simp [hcc])
    rw [List.dropWhile_cons, if_neg (by simp [hc])]

theorem stripNl_append_nl : ∀ (x : List Char), '\n' ∉ x → stripNl (x ++ ['\n']) = x := by
  intro x h
  cases x with
  | nil => decide
  | cons c x' =>
    have hc : c ≠ '\n' := fun hcc => h (by simp [hcc])
    have hx' : '\n' ∉ x' := fun hm => h (by simp [hm])
    unfold stripNl
    rw [List.cons_append, List.dropWhile_cons, if_neg (by simp [hc]), ← List.cons_append,
      List.reverse_append]
    simp only [List.reverse_cons, List.reverse_nil, List.nil_append, List.singleton_append]
    rw [List.dropWhile_cons, if_pos (by simp)]
    rw [dropWhile_nl_no _ (by
      simp only [List.mem_append, List.mem_reverse, List.mem_singleton]
      rintro (h' | h')
      · exact hx' h'
      · exact hc h'.symm)]
    simp

theorem splitSpace_no : ∀ {v : List Char}, ' ' ∉ v → splitSpace v = [v] := by
  intro v
  induction v with
  | nil => intro _; rfl
  | cons c v' ih =>
    intro h
    have hc : c ≠ ' ' := fun hcc => h (by simp [hcc])
    rw [splitSpace, if_neg hc, ih (fun hm => h (by simp [hm]))]

theorem splitSpace_append : ∀ {k : List Char} (v : List Char), ' ' ∉ k →
    splitSpace (k ++ ' ' :: v) = k :: splitSpace v := by
  intro k
  induction k with
  | nil => intro v _; rw [List.nil_append, splitSpace, if_pos rfl]
  | cons c k' ih =>
    intro v h
    have hc : c ≠ ' ' := fun hcc => h (by simp [hcc])
    rw [List.cons_append, splitSpace, if_neg hc, ih v (fun hm => h (by simp [hm]))]

theorem parseLine_written (k v : List Char) (hks : ' ' ∉ k) (hkn : '\n' ∉ k)
    (hvs : ' ' ∉ v) (hvn : '\n' ∉ v) :
    parseLine (k ++ ' ' :: v ++ ['\n']) = some (k, v) := by
  unfold parseLine
  have h1 : stripNl (k ++ ' ' :: v ++ ['\n']) = k ++ ' ' :: v := by
    have := stripNl_append_nl (k ++ ' ' :: v) (by
      simp only [List.mem_append, List.mem_cons]
      rintro (h' | h' | h') <;> [exact hkn h'; exact absurd h'.symm (by decide); exact hvn h'])
    simpa using this
  rw [h1, splitSpace_append v hks, splitSpace_no hvs]

theorem lookupA_none_not_mem_keys : ∀ (m : CacheMap) (k : List Char),
    lookupA m k = none → k ∉ m.map Prod.fst := by
  intro m k
  induction m with
  | nil => intro _; simp
  | cons p m' ih =>
    intro h
    obtain ⟨k₁, v₁⟩ := p
    rw [lookupA] at h
    by_cases hk : k₁ = k
    · rw [if_pos hk] at h; exact absurd h (by simp)
    · rw [if_neg hk] at h
      simp only [List.map_cons, List.mem_cons]
      rintro (h' | h')
      · exact hk h'.symm
      · exact ih h h'

theorem insertA_keys_nodup (m : CacheMap) (k v : List Char)
    (h : (m.map Prod.fst).Nodup) : ((insertA m k v).map Prod.fst).Nodup := by
  unfold insertA
  by_cases hl : (lookupA m k).isSome = true
  · rw [if_pos hl]
    have : (m.map (fun p => if p.1 = k then (k, v) else p)).map Prod.fst = m.map Prod.fst := by
      rw [List.map_map]
      apply List.map_congr_left
      intro p _
      by_cases hp : p.1 = k
      · simp [hp]
      · simp [hp]
    rw [this]
    exact h
  · rw [if_neg hl]
    have hnone : lookupA m k = none := by
      cases hlk : lookupA m k
      · rfl
      · rw [hlk] at hl; simp at hl
    rw [List.map_append]
    simp only [List.map_cons, List.map_nil]
    rw [List.nodup_append]
    exact ⟨h, List.nodup_singleton k,
      by simpa using fun hmem => lookupA_none_not_mem_keys m k hnone hmem⟩

theorem processExprs_nc_nodup (cfg : Config) (hash : List Char → List Char)
    (oracle : List Char → List Char → Bool → Option (List Char))
    (pre : List Char) (cached : CacheMap) :
    ∀ (l : List (Bool × List Char)) (st : RunSt),
    (st.new_cache.map Prod.fst).Nodup →
    ((processExprs cfg hash oracle pre cached l st).new_cache.map Prod.fst).Nodup := by
  intro l
  induction l with
  | nil => intro st h; exact h
  | cons e rest ih =>
    intro st h
    rw [processExprs]
    apply ih
    rw [stepExpr_eq]
    unfold ncOf
    cases lookupA cached (hash e.2) with
    | some d => exact h
    | none =>
      cases oracle pre e.2 e.1 with
      | some d => exact insertA_keys_nodup _ _ _ h
      | none => exact h

theorem loadCache_skip_other (k : List Char) :
    ∀ (ls : List (List Char)) (m : CacheMap),
    (∀ l ∈ ls, ∀ k' v', parseLine l = some (k', v') → k' ≠ k) →
    lookupA (loadCache m ls) k = lookupA m k := by
  intro ls
  induction ls with
  | nil => intro m _; rfl
  | cons l rest ih =>
    intro m h
    rw [loadCache]
    cases hp : parseLine l with
    | none => rfl
    | some kv =>
      obtain ⟨k₁, v₁⟩ := kv
      rw [ih _ (fun x hx => h x (by simp [hx]))]
      exact lookupA_insertA_other m k₁ v₁ k (fun he => h l (by simp) k₁ v₁ hp he.symm)

theorem loadCache_written_lookup :
    ∀ (nc : CacheMap) (m : CacheMap) (k p : List Char),
    (nc.map Prod.fst).Nodup →
    (∀ q ∈ nc, ' ' ∉ q.1 ∧ '\n' ∉ q.1 ∧ ' ' ∉ q.2 ∧ '\n' ∉ q.2) →
    lookupA nc k = some p →
    lookupA (loadCache m (nc.map (fun q => q.1 ++ ' ' :: q.2 ++ ['\n']))) k = some p := by
  intro nc
  induction nc with
  | nil => intro m k p _ _ h; simp [lookupA] at h
  | cons q nc' ih =>
    intro m k p hnodup hok h
    obtain ⟨k₁, v₁⟩ := q
    obtain ⟨hks, hkn, hvs, hvn⟩ := hok (k₁, v₁) (by simp)
    rw [List.map_cons, loadCache, parseLine_written k₁ v₁ hks hkn hvs hvn]
    rw [lookupA] at h
    by_cases hk : k₁ = k
    · rw [if_pos hk] at h
      subst hk
      have hrest : ∀ l ∈ nc'.map (fun q => q.1 ++ ' ' :: q.2 ++ ['\n']),
          ∀ k' v', parseLine l = some (k', v') → k' ≠ k₁ := by
        intro l hl k' v' hp'
        simp only [List.mem_map] at hl
        obtain ⟨q', hq', hq'eq⟩ := hl
        obtain ⟨hks', hkn', hvs', hvn'⟩ := hok q' (by simp [hq'])
        rw [← hq'eq, parseLine_written q'.1 q'.2 hks' hkn' hvs' hvn'] at hp'
        have hk' : k' = q'.1 := by
          have := Option.some.inj hp'
          exact (Prod.mk.injEq _ _ _ _ ▸ this).1.symm
        subst hk'
        intro heq
        rw [List.map_cons] at hnodup
        have hmem : q'.1 ∈ nc'.map Prod.fst := List.mem_map_of_mem Prod.fst hq'
        rw [heq] at hmem
        exact (List.nodup_cons.mp hnodup).1 hmem
      rw [loadCache_skip_other k₁ _ _ hrest, lookupA_insertA_self]
      exact h
    · rw [if_neg hk] at h
      exact ih (insertA m k₁ v₁) k p
        (by rw [List.map_cons] at hnodup; exact (List.nodup_cons.mp hnodup).2)
        (fun x hx => hok x (by simp [hx])) h

theorem run_fileAppend_eq (cfg : Config) (hash : List Char → List Char)
    (oracle : List Char → List Char → Bool → Option (List Char))
    (st : PState) (lines : List (List Char)) :
    (run cfg hash oracle st lines).fileAppend
      = writeCache (run cfg hash oracle st lines).new_cache := by
  simp only [run]
  split <;> rfl

theorem run_nc_nodup (cfg : Config) (hash : List Char → List Char)
    (oracle : List Char → List Char → Bool → Option (List Char))
    (st : PState) (lines : List (List Char)) :
    ((run cfg hash oracle st lines).new_cache.map Prod.fst).Nodup := by
  simp only [run]
  split
  · simp
  · exact processExprs_nc_nodup _ _ _ _ _ _ _ (by simp)

theorem run_calls_cached_miss (cfg : Config) (hash : List Char → List Char)
    (oracle : List Char → List Char → Bool → Option (List Char))
    (st : PState) (lines : List (List Char)) (c : List Char × List Char × Bool)
    (h : c ∈ (run cfg hash oracle st lines).calls) :
    lookupA st.cached (hash c.2.1) = none := by
  revert h
  simp only [run]
  split
  · intro h; simp at h
  · intro h
    rcases processExprs_calls_mem _ _ _ _ _ _ _ _ h with h' | h'
    · simp at h'
    · exact h'

theorem processExprs_subs_from (cfg : Config) (hash : List Char → List Char)
    (oracle : List Char → List Char → Bool → Option (List Char))
    (pre : List Char) (cached : CacheMap) (l : List (Bool × List Char)) (st : RunSt)
    (s : Sub) (h : s ∈ (processExprs cfg hash oracle pre cached l st).subs) :
    s ∈ st.subs ∨ ∃ e k, s = subOf hash oracle pre cached k e := by
  induction l generalizing st with
  | nil => exact Or.inl h
  | cons e rest ih =>
    rw [processExprs] at h
    rcases ih _ h with h' | h'
    · rw [stepExpr_eq] at h'
      simp only [List.mem_append, List.mem_singleton] at h'
      rcases h' with h' | h'
      · exact Or.inl h'
      · exact Or.inr ⟨e, st.idc + 1, h'⟩
    · exact Or.inr h'

theorem run_subs_from (cfg : Config) (hash : List Char → List Char)
    (oracle : List Char → List Char → Bool → Option (List Char))
    (st : PState) (lines : List (List Char)) (s : Sub)
    (h : s ∈ (run cfg hash oracle st lines).subs) :
    ∃ e k, s = subOf hash oracle (run cfg hash oracle st lines).preambleUsed st.cached k e := by
  revert h
  simp only [run]
  split
  · intro h; simp at h
  · intro h
    rcases processExprs_subs_from _ _ _ _ _ _ _ _ h with h' | h'
    · simp at h'
    · exact h'

/-- C3: an entry recorded by run N for expression `E` (hash/payload pair
appended to the cache file) is found again when a later instance loads the
grown file, and a run N+1 on that instance makes no external invocation for
`E` and substitutes the stored payload for every occurrence hashing to
`E`'s key. -/
theorem claim_C3 (cfg : Config) (hash : List Char → List Char)
    (oracle₁ oracle₂ : List Char → List Char → Bool → Option (List Char))
    (st₀ : PState) (lines₁ lines₂ : List (List Char)) (file₀ : List Char)
    (E p : List Char) (c₀ : CacheMap) (pre₁ : List Char)
    (h1 : lookupA (run cfg hash oracle₁ st₀ lines₁).new_cache (hash E) = some p)
    (h2 : ∀ l ∈ readLines file₀, (parseLine l).isSome = true)
    (h3 : file₀ = [] ∨ file₀.getLast? = some '\n')
    (h4 : ∀ q ∈ (run cfg hash oracle₁ st₀ lines₁).new_cache,
        ' ' ∉ q.1 ∧ '\n' ∉ q.1 ∧ ' ' ∉ q.2 ∧ '\n' ∉ q.2) :
    lookupA (loadCache c₀
        (readLines (file₀ ++ (run cfg hash oracle₁ st₀ lines₁).fileAppend))) (hash E) = some p
    ∧ (∀ c ∈ (run cfg hash oracle₂
        ⟨pre₁, loadCache c₀
          (readLines (file₀ ++ (run cfg hash oracle₁ st₀ lines₁).fileAppend))⟩
        lines₂).calls, c.2.1 ≠ E)
    ∧ (∀ s ∈ (run cfg hash oracle₂
        ⟨pre₁, loadCache c₀
          (readLines (file₀ ++ (run cfg hash oracle₁ st₀ lines₁).fileAppend))⟩
        lines₂).subs, s.hash = hash E → s.data = p) := by
  have hload : lookupA (loadCache c₀
      (readLines (file₀ ++ (run cfg hash oracle₁ st₀ lines₁).fileAppend))) (hash E) = some p := by
    rw [run_fileAppend_eq]
    have hwritten := loadCache_written_lookup (run cfg hash oracle₁ st₀ lines₁).new_cache
    have hnl : ∀ q ∈ (run cfg hash oracle₁ st₀ lines₁).new_cache, '\n' ∉ q.1 ∧ '\n' ∉ q.2 :=
      fun q hq => ⟨(h4 q hq).2.1, (h4 q hq).2.2.2⟩
    rcases h3 with h3 | h3
    · subst h3
      rw [List.nil_append, readLines_writeCache _ hnl]
      exact hwritten c₀ (hash E) p (run_nc_nodup cfg hash oracle₁ st₀ lines₁) h4 h1
    · rw [readLines, readLinesAux_ends_nl file₀ h3 [] _, ← readLines, ← readLines,
        loadCache_append_good _ h2, readLines_writeCache _ hnl]
      exact hwritten _ (hash E) p (run_nc_nodup cfg hash oracle₁ st₀ lines₁) h4 h1
  refine ⟨hload, ?_, ?_⟩
  · intro c hc hE
    have := run_calls_cached_miss cfg hash oracle₂ _ lines₂ c hc
    rw [hE] at this
    rw [this] at hload
    exact absurd hload (by simp)
  · intro s hs hhash
    obtain ⟨e, k, hse⟩ := run_subs_from cfg hash oracle₂ _ lines₂ s hs
    subst hse
    simp only [subOf] at hhash ⊢
    unfold dataOf
    rw [hhash, hload]

/-- Witness for C3: run N compiles `a`, writes `a Q` to the fresh cache
file, and run N+1 on the loaded cache reuses the payload with no
invocation. -/
theorem claim_C3_witness :
    lookupA (loadCache []
        (readLines ([] ++ (run defaultConfig (fun s => s) (fun _ _ _ => some ['Q'])
          ⟨[], []⟩ ["%a%".data]).fileAppend))) ['a'] = some ['Q']
    ∧ (∀ c ∈ (run defaultConfig (fun s => s) (fun _ _ _ => some ['R'])
        ⟨[], loadCache []
          (readLines ([] ++ (run defaultConfig (fun s => s) (fun _ _ _ => some ['Q'])
            ⟨[], []⟩ ["%a%".data]).fileAppend))⟩
        ["%a%".data]).calls, c.2.1 ≠ ['a'])
    ∧ (∀ s ∈ (run defaultConfig (fun s => s) (fun _ _ _ => some ['R'])
        ⟨[], loadCache []
          (readLines ([] ++ (run defaultConfig (fun s => s) (fun _ _ _ => some ['Q'])
            ⟨[], []⟩ ["%a%".data]).fileAppend))⟩
        ["%a%".data]).subs, s.hash = ['a'] → s.data = ['Q']) :=
  claim_C3 defaultConfig (fun s => s) (fun _ _ _ => some ['Q']) (fun _ _ _ => some ['R'])
    ⟨[], []⟩ ["%a%".data] ["%a%".data] [] ['a'] ['Q'] [] []
    (by decide) (by decide) (Or.inl rfl) (by decide)

/-! ### Python str.replace lemmas for the unescaping pass -/

theorem isPrefixOf_append_self : ∀ (p u : List Char), p.isPrefixOf (p ++ u) = true := by
  intro p u
  induction p with
  | nil => simp [List.isPrefixOf]
  | cons c p' ih => simp [List.isPrefixOf, ih]

theorem replaceAllAux_fuel (pat rep : List Char) (_hne : pat ≠ []) :
    ∀ (fuel₁ : Nat) (s : List Char) (fuel₂ : Nat), s.length ≤ fuel₁ → s.length ≤ fuel₂ →
    replaceAllAux pat rep fuel₁ s = replaceAllAux pat rep fuel₂ s := by
  intro fuel₁
  induction fuel₁ with
  | zero =>
    intro s fuel₂ h₁ _
    have : s = [] := List.eq_nil_of_length_eq_zero (Nat.le_zero.mp h₁)
    subst this
    cases fuel₂ <;> rfl
  | succ f₁ ih =>
    intro s fuel₂ h₁ h₂
    cases s with
    | nil => cases fuel₂ <;> rfl
    | cons c rest =>
      cases fuel₂ with
      | zero => simp at h₂
      | succ f₂ =>
        rw [replaceAllAux, replaceAllAux]
        by_cases hp : pat.isPrefixOf (c :: rest) = true
        · rw [if_pos hp, if_pos hp]
          have hlen : (rest.drop (pat.length - 1)).length ≤ f₁ := by
            have := List.length_drop (pat.length - 1) rest
            simp only [List.length_cons] at h₁
            omega
          have hlen₂ : (rest.drop (pat.length - 1)).length ≤ f₂ := by
            have := List.length_drop (pat.length - 1) rest
            simp only [List.length_cons] at h₂
            omega
          rw [ih _ f₂ hlen hlen₂]
        · rw [if_neg hp, if_neg hp]
          have hlen : rest.length ≤ f₁ := by simp only [List.length_cons] at h₁; omega
          have hlen₂ : rest.length ≤ f₂ := by simp only [List.length_cons] at h₂; omega
          rw [ih _ f₂ hlen hlen₂]

theorem replaceAll_skip (t rep : List Char) :
    ∀ (a u : List Char), bsl ∉ a →
    replaceAll (bsl :: t) rep (a ++ u) = a ++ replaceAll (bsl :: t) rep u := by
  have aux : ∀ (fuel : Nat) (a u : List Char), bsl ∉ a → (a ++ u).length ≤ fuel →
      replaceAllAux (bsl :: t) rep fuel (a ++ u)
        = a ++ replaceAllAux (bsl :: t) rep (fuel - a.length) u := by
    intro fuel
    induction fuel with
    | zero =>
      intro a u ha h
      have h' : a ++ u = [] := List.eq_nil_of_length_eq_zero (Nat.le_zero.mp h)
      rw [List.append_eq_nil] at h'
      obtain ⟨ha', hu'⟩ := h'
      subst ha'; subst hu'
      rfl
    | succ f ih =>
      intro a u ha h
      cases a with
      | nil => simp
      | cons c a' =>
        have hc : c ≠ bsl := fun hcc => ha (by simp [hcc])
        rw [List.cons_append, replaceAllAux,
          if_neg (by
            simp only [List.isPrefixOf, Bool.and_eq_true, beq_iff_eq]
            rintro ⟨h', -⟩
            exact hc h'.symm),
          ih a' u (fun hm => ha (by simp [hm])) (by simp at h ⊢; omega)]
        simp

  intro a u ha
  rw [replaceAll, aux _ a u ha (Nat.le_refl _)]
  have : (a ++ u).length - a.length = u.length := by simp
  rw [this, ← replaceAll]

theorem replaceAll_noop (t rep : List Char) (s : List Char) (hs : bsl ∉ s) :
    replaceAll (bsl :: t) rep s = s := by
  have h := replaceAll_skip t rep s [] hs
  rw [List.append_nil] at h
  rw [h, show replaceAll (bsl :: t) rep [] = [] from rfl, List.append_nil]

theorem replaceAll_fire (t rep u : List Char) :
    replaceAll (bsl :: t) rep ((bsl :: t) ++ u) = rep ++ replaceAll (bsl :: t) rep u := by
  rw [replaceAll]
  have hlen : ((bsl :: t) ++ u).length = (t ++ u).length + 1 := by simp
  rw [hlen, List.cons_append, replaceAllAux,
    if_pos (by rw [← List.cons_append]; exact isPrefixOf_append_self _ _)]
  have hdrop : (t ++ u).drop ((bsl :: t).length - 1) = u := by
    simp only [List.length_cons, Nat.add_sub_cancel]
    exact List.drop_left t u
  rw [hdrop]
  rw [replaceAllAux_fuel (bsl :: t) rep (by simp) _ u u.length (by simp) (Nat.le_refl _),
    ← replaceAll]

theorem replaceAll_skip_bsl (t rep u : List Char) (h : t.isPrefixOf u = false) :
    replaceAll (bsl :: t) rep (bsl :: u) = bsl :: replaceAll (bsl :: t) rep u := by
  rw [replaceAll, List.length_cons, replaceAllAux,
    if_neg (by simp [List.isPrefixOf, h])]
  rw [replaceAllAux_fuel (bsl :: t) rep (by simp) _ u u.length (Nat.le_refl _) (Nat.le_refl _),
    ← replaceAll]

theorem bsl_not_mem_append {u v : List Char} (hu : bsl ∉ u) (hv : bsl ∉ v) :
    bsl ∉ u ++ v := by
  simp [List.mem_append, hu, hv]

theorem bsl_not_mem_cons {c : Char} {v : List Char} (hc : c ≠ bsl) (hv : bsl ∉ v) :
    bsl ∉ c :: v := by
  intro hm
  rcases List.mem_cons.mp hm with hm | hm
  · exact hc hm.symm
  · exact hv hm

/-- C8 (amended): after substitution, a single escaped delimiter occurrence
(preamble, text or math) in an otherwise backslash-free context is
un-escaped exactly once, and a lone escaped backslash likewise provided it
is not immediately followed by a delimiter token; an escaped backslash
directly before a delimiter token loses both escapes, because the
sequential token passes re-expose the first backslash (see the
counterexample). -/
theorem claim_C8 (a b : List Char) (ha : bsl ∉ a) (hb : bsl ∉ b) :
    unescape defaultConfig (a ++ bsl :: (defaultConfig.preambleDelim ++ b))
      = a ++ defaultConfig.preambleDelim ++ b
    ∧ unescape defaultConfig (a ++ bsl :: (defaultConfig.textDelim ++ b))
      = a ++ defaultConfig.textDelim ++ b
    ∧ unescape defaultConfig (a ++ bsl :: (defaultConfig.mathDelim ++ b))
      = a ++ defaultConfig.mathDelim ++ b
    ∧ (defaultConfig.textDelim.isPrefixOf b = false →
       defaultConfig.mathDelim.isPrefixOf b = false →
       unescape defaultConfig (a ++ bsl :: bsl :: b) = a ++ bsl :: b) := by
  simp only [unescape, defaultConfig, List.foldl, List.append_assoc, List.cons_append,
    List.nil_append]
  refine ⟨?_, ?_, ?_, ?_⟩
  · rw [replaceAll_skip _ _ _ _ ha,
      show (bsl :: '%' :: '%' :: b : List Char) = (bsl :: ['%', '%']) ++ b from rfl,
      replaceAll_fire, replaceAll_noop _ _ _ hb]
    simp only [List.cons_append, List.nil_append]
    have hf : bsl ∉ a ++ '%' :: '%' :: b :=
      bsl_not_mem_append ha (bsl_not_mem_cons (by decide) (bsl_not_mem_cons (by decide) hb))
    rw [replaceAll_noop _ _ _ hf, replaceAll_noop _ _ _ hf, replaceAll_noop _ _ _ hf]
  · by_cases hp : (['%'] : List Char).isPrefixOf b = true
    · obtain ⟨b', hb'⟩ := isPrefixOf_exists hp
      subst hb'
      simp only [List.cons_append, List.nil_append]
      have hb'' : bsl ∉ b' := fun hm => hb (by simp [hm])
      rw [replaceAll_skip _ _ _ _ ha,
        show (bsl :: '%' :: '%' :: b' : List Char) = (bsl :: ['%', '%']) ++ b' from rfl,
        replaceAll_fire, replaceAll_noop _ _ _ hb'']
      simp only [List.cons_append, List.nil_append]
      have hf : bsl ∉ a ++ '%' :: '%' :: b' :=
        bsl_not_mem_append ha (bsl_not_mem_cons (by decide) (bsl_not_mem_cons (by decide) hb''))
      rw [replaceAll_noop _ _ _ hf, replaceAll_noop _ _ _ hf, replaceAll_noop _ _ _ hf]
    · have hp' : (['%'] : List Char).isPrefixOf b = false := by
        cases h : (['%'] : List Char).isPrefixOf b
        · rfl
        · exact absurd h hp
      have hpp : (['%', '%'] : List Char).isPrefixOf ('%' :: b) = false := by
        simp only [List.isPrefixOf] at hp' ⊢
        simp [hp']
      rw [replaceAll_skip _ _ _ _ ha, replaceAll_skip_bsl _ _ _ hpp,
        replaceAll_noop _ _ ('%' :: b) (bsl_not_mem_cons (by decide) hb)]
      rw [replaceAll_skip _ _ _ _ ha,
        show (bsl :: '%' :: b : List Char) = (bsl :: ['%']) ++ b from rfl,
        replaceAll_fire, replaceAll_noop _ _ _ hb]
      simp only [List.cons_append, List.nil_append]
      have hf : bsl ∉ a ++ '%' :: b :=
        bsl_not_mem_append ha (bsl_not_mem_cons (by decide) hb)
      rw [replaceAll_noop _ _ _ hf, replaceAll_noop _ _ _ hf]
  · have hb3 : bsl ∉ Char.ofNat 194 :: Char.ofNat 163 :: b :=
      bsl_not_mem_cons (by decide) (bsl_not_mem_cons (by decide) hb)
    have h1 : (['%', '%'] : List Char).isPrefixOf
        (Char.ofNat 194 :: Char.ofNat 163 :: b) = false := by
      simp [List.isPrefixOf, show ('%' == Char.ofNat 194) = false from by decide]
    have h2 : (['%'] : List Char).isPrefixOf
        (Char.ofNat 194 :: Char.ofNat 163 :: b) = false := by
      simp [List.isPrefixOf, show ('%' == Char.ofNat 194) = false from by decide]
    rw [replaceAll_skip _ _ _ _ ha, replaceAll_skip_bsl _ _ _ h1,
      replaceAll_noop _ _ _ hb3]
    rw [replaceAll_skip _ _ _ _ ha, replaceAll_skip_bsl _ _ _ h2,
      replaceAll_noop _ _ _ hb3]
    rw [replaceAll_skip _ _ _ _ ha,
      show (bsl :: Char.ofNat 194 :: Char.ofNat 163 :: b : List Char)
        = (bsl :: [Char.ofNat 194, Char.ofNat 163]) ++ b from rfl,
      replaceAll_fire, replaceAll_noop _ _ _ hb]
    simp only [List.cons_append, List.nil_append]
    have hf : bsl ∉ a ++ Char.ofNat 194 :: Char.ofNat 163 :: b :=
      bsl_not_mem_append ha hb3
    rw [replaceAll_noop _ _ _ hf]
  · intro ht hm
    have hbb : bsl ∉ bsl :: b → False := fun h => h (by simp)
    have hppb : (['%', '%'] : List Char).isPrefixOf b = false := by
      cases b with
      | nil => rfl
      | cons c b' =>
        simp only [List.isPrefixOf, Bool.and_true] at ht
        simp [List.isPrefixOf, ht]
    have hpb1 : (['%', '%'] : List Char).isPrefixOf (bsl :: b) = false := by
      simp [List.isPrefixOf, show ('%' == bsl) = false from by decide]
    have htb1 : (['%'] : List Char).isPrefixOf (bsl :: b) = false := by
      simp [List.isPrefixOf, show ('%' == bsl) = false from by decide]
    have hmb1 : ([Char.ofNat 194, Char.ofNat 163] : List Char).isPrefixOf (bsl :: b)
        = false := by
      simp [List.isPrefixOf, show (Char.ofNat 194 == bsl) = false from by decide]
    rw [replaceAll_skip _ _ _ _ ha, replaceAll_skip_bsl _ _ _ hpb1,
      replaceAll_skip_bsl _ _ _ hppb, replaceAll_noop _ _ _ hb]
    rw [replaceAll_skip _ _ _ _ ha, replaceAll_skip_bsl _ _ _ htb1,
      replaceAll_skip_bsl _ _ _ ht, replaceAll_noop _ _ _ hb]
    rw [replaceAll_skip _ _ _ _ ha, replaceAll_skip_bsl _ _ _ hmb1,
      replaceAll_skip_bsl _ _ _ hm, replaceAll_noop _ _ _ hb]
    rw [replaceAll_skip _ _ _ _ ha,
      show (bsl :: bsl :: b : List Char) = (bsl :: [bsl]) ++ b from rfl,
      replaceAll_fire, replaceAll_noop _ _ _ hb]
    simp only [List.cons_append, List.nil_append]

/-- Counterexample to C8 as stated: the input line `%a% \\%%` contains one
escaped backslash (and no other escape), so the claim demands exactly one
literal backslash in the output; but after the substitution pass the
sequential un-escape replacements delete both backslashes (the preamble
pass turns `\%%` into `%%` and the text pass then consumes `\%`), leaving
an output with no backslash at all. -/
theorem claim_C8_counterexample :
    ("%a% \\\\%%".data = "%a% ".data ++ bsl :: bsl :: "%%".data)
    ∧ "%a% ".data.count bsl = 0
    ∧ "%%".data.count bsl = 0
    ∧ ((run defaultConfig (fun s => s) (fun _ _ _ => some ['P']) ⟨[], []⟩
        ["%a% \\\\%%".data]).outLines.map (fun l => l.count bsl)) = [0] := by
  refine ⟨by decide, by decide, by decide, by decide⟩

/-- Witness for the amended C8 in the one-character contexts `x`/`y`. -/
theorem claim_C8_witness :
    unescape defaultConfig (['x'] ++ bsl :: (defaultConfig.preambleDelim ++ ['y']))
      = ['x'] ++ defaultConfig.preambleDelim ++ ['y']
    ∧ unescape defaultConfig (['x'] ++ bsl :: (defaultConfig.textDelim ++ ['y']))
      = ['x'] ++ defaultConfig.textDelim ++ ['y']
    ∧ unescape defaultConfig (['x'] ++ bsl :: (defaultConfig.mathDelim ++ ['y']))
      = ['x'] ++ defaultConfig.mathDelim ++ ['y']
    ∧ (defaultConfig.textDelim.isPrefixOf ['y'] = false →
       defaultConfig.mathDelim.isPrefixOf ['y'] = false →
       unescape defaultConfig (['x'] ++ bsl :: bsl :: ['y']) = ['x'] ++ bsl :: ['y']) :=
  claim_C8 ['x'] ['y'] (by decide) (by decide)

end LatexMD
